import Mathlib

/-!
Verification of the model-file classifier, validator, configuration merge,
output-path derivation and worker conversion wrapper of the
rknn_model_conversion repository (src/utils/model_analyzer.py,
src/utils/config.py, src/convertor/converter_worker.py), together with a
transition-system model of the worker pool described by the design document.

Python strings are modelled as Lean `String` values; every string operation
used by the source (`os.path.splitext`, `os.path.basename`, `os.path.join`,
`str.lower`, `str.endswith`, substring membership) is re-implemented below by
structural recursion over the character list, following CPython's posixpath
semantics for ASCII input.  Python's `set` of used file paths is modelled as a
`List String` queried by membership, and `None`-or-string values as
`Option String` with Python truthiness (`none` and `""` are falsy).
-/

/-- ASCII lower-casing of a single character, as Python `str.lower` acts on
ASCII input. -/
def chLower (c : Char) : Char :=
  if 'A' ≤ c ∧ c ≤ 'Z' then Char.ofNat (c.toNat + 32) else c

/-- Python `s.lower()` restricted to ASCII strings. -/
def strLower (s : String) : String :=
  String.mk (s.toList.map chLower)

/-- Does the first character list lead the second one?  (Python
`startswith` on the underlying characters.) -/
def leadMatch : List Char → List Char → Bool
  | [], _ => true
  | _ :: _, [] => false
  | a :: as, b :: bs => a = b && leadMatch as bs

/-- Does the first character list occur contiguously inside the second?
(Python `needle in haystack` for strings.) -/
def seqInside : List Char → List Char → Bool
  | n, [] => leadMatch n []
  | n, c :: cs => leadMatch n (c :: cs) || seqInside n cs

/-- Python substring membership `needle in haystack`. -/
def strIn (needle haystack : String) : Bool :=
  seqInside needle.toList haystack.toList

/-- Python `s.endswith(suffix)`. -/
def strEndsWith (s suffix : String) : Bool :=
  leadMatch suffix.toList.reverse s.toList.reverse

/-- Index of the last occurrence of `c`, counting from `i` for the head. -/
def lastIdxOfAux (c : Char) : List Char → Nat → Option Nat
  | [], _ => none
  | x :: xs, i =>
    match lastIdxOfAux c xs (i + 1) with
    | some j => some j
    | none => if x = c then some i else none

/-- Index of the last occurrence of a character in a character list. -/
def lastIdxOf (c : Char) (cs : List Char) : Option Nat :=
  lastIdxOfAux c cs 0

/-- Python `os.path.splitext` (posixpath): split at the last dot that lies
after the last path separator, provided some character of the base name
strictly before that dot is not itself a dot. -/
def pySplitext (s : String) : String × String :=
  let cs := s.toList
  let b := match lastIdxOf '/' cs with | none => 0 | some i => i + 1
  match lastIdxOf '.' cs with
  | none => (s, "")
  | some d =>
    if b ≤ d ∧ (List.range' b (d - b)).any (fun i => ¬ cs.getD i '.' = '.') then
      (String.mk (cs.take d), String.mk (cs.drop d))
    else (s, "")

/-- Python `os.path.basename` (posixpath): everything after the last slash. -/
def pyBasename (s : String) : String :=
  match lastIdxOf '/' s.toList with
  | none => s
  | some i => String.mk (s.toList.drop (i + 1))

/-- Python `os.path.join` (posixpath) for two components. -/
def pyJoin (a b : String) : String :=
  if b.toList.headD ' ' = '/' then b
  else if a = "" ∨ a.toList.getLast? = some '/' then a ++ b
  else a ++ "/" ++ b

/-- Python truthiness of an `Optional[str]`: `None` and `""` are falsy. -/
def pyTruthy (o : Option String) : Bool :=
  match o with
  | none => false
  | some s => s ≠ ""

/-- Python `str(x)` for an `Optional[str]` value: `None` prints as "None". -/
def pyStrOpt (o : Option String) : String :=
  match o with
  | none => "None"
  | some s => s

/-- `FileInfo` dataclass of src/utils/model_analyzer.py. -/
structure FileInfo where
  filename : String
  filepath : String
  extension : String
  size : Nat
deriving DecidableEq, Repr

/-- `ModelFiles` dataclass of src/utils/config.py. -/
structure ModelFiles where
  primary_file : String
  secondary_files : List String := []
  additional_files : List String := []
  model_type : String := ""
deriving DecidableEq, Repr

/-- `ModelFiles.get_all_files`: primary plus secondary paths (the source does
not include the additional files here). -/
def ModelFiles.get_all_files (m : ModelFiles) : List String :=
  m.primary_file :: m.secondary_files

/-- `ModelFiles.get_model_name`: base name of the primary file without its
extension. -/
def ModelFiles.get_model_name (m : ModelFiles) : String :=
  (pySplitext (pyBasename m.primary_file)).1

/-- Keyword vocabulary of `ModelFileAnalyzer._has_common_keywords`. -/
def commonKeywords : List String :=
  ["googlenet", "resnet", "vgg", "alexnet", "mobilenet",
   "squeezenet", "densenet", "inception", "yolo", "ssd"]

/-- The double loop of `_has_common_keywords`: some substring of `name1`
of length 3 up to 7 occurs in `name2` (Python checks `name1[i:i+j]` for
`i in range(len(name1)-2)` and `j in range(3, min(len(name1)-i+1, 8))`). -/
def hasCommonSubstring3 (name1 name2 : String) : Bool :=
  let l1 := name1.toList
  (List.range (l1.length - 2)).any fun i =>
    (List.range' 3 (min (l1.length - i + 1) 8 - 3)).any fun j =>
      let sub := (l1.drop i).take j
      sub.length ≥ 3 && seqInside sub name2.toList

/-- `ModelFileAnalyzer._has_common_keywords`: a shared vocabulary keyword, or
a shared substring of length at least 3. -/
def has_common_keywords (name1 name2 : String) : Bool :=
  commonKeywords.any (fun k => strIn k name1 && strIn k name2)
    || hasCommonSubstring3 name1 name2

/-- The per-candidate loop of `ModelFileAnalyzer._find_fuzzy_match`: first
unused file of the secondary extension that passes the keyword check or whose
base name contains / is contained in the primary's base name. -/
def fuzzyScan (primary_base secondary_ext : String) (used : List String) :
    List FileInfo → List String
  | [] => []
  | f :: fs =>
    if f.extension = secondary_ext ∧ f.filepath ∉ used then
      let secondary_base := strLower (pySplitext f.filename).1
      if has_common_keywords primary_base secondary_base then
        [f.filepath]
      else if strIn primary_base secondary_base || strIn secondary_base primary_base then
        [f.filepath]
      else fuzzyScan primary_base secondary_ext used fs
    else fuzzyScan primary_base secondary_ext used fs

/-- `ModelFileAnalyzer._find_fuzzy_match`: the candidate loop above, then the
single-remaining-candidate elimination fallback. -/
def find_fuzzy_match (primary : FileInfo) (secondary_ext : String)
    (file_infos : List FileInfo) (used : List String) : List String :=
  let primary_base := strLower (pySplitext primary.filename).1
  let found := fuzzyScan primary_base secondary_ext used file_infos
  if found = [] then
    match file_infos.filter (fun f => f.extension = secondary_ext ∧ f.filepath ∉ used) with
    | [f] => [f.filepath]
    | _ => []
  else found

/-- Exact base-name matching step of `_find_paired_files`: every unused file
of the secondary extension whose base name equals the primary's base name. -/
def exactSecondaries (file_infos : List FileInfo) (secondary_ext : String)
    (used : List String) (base_name : String) : List String :=
  (file_infos.filter fun f =>
    f.extension = secondary_ext ∧ f.filepath ∉ used ∧
      (pySplitext f.filename).1 = base_name).map (·.filepath)

/-- The secondary files chosen for one primary file in `_find_paired_files`:
the exact base-name matches, or the fuzzy fallback when there are none. -/
def chooseSecs (file_infos : List FileInfo) (secondary_ext : String)
    (used : List String) (p : FileInfo) : List String :=
  let exact := exactSecondaries file_infos secondary_ext used (pySplitext p.filename).1
  if exact = [] then find_fuzzy_match p secondary_ext file_infos used else exact

/-- The loop body of `_find_paired_files` over the pre-filtered primary
files, threading the used-path set. -/
def pairedStep (file_infos : List FileInfo) (model_type secondary_ext : String) :
    List FileInfo → List String → List ModelFiles × List String
  | [], used => ([], used)
  | p :: ps, used =>
    let secs := chooseSecs file_infos secondary_ext used p
    if secs = [] then pairedStep file_infos model_type secondary_ext ps used
    else
      let rest := pairedStep file_infos model_type secondary_ext ps (used ++ p.filepath :: secs)
      (⟨p.filepath, secs, [], model_type⟩ :: rest.1, rest.2)

/-- `ModelFileAnalyzer._find_paired_files` for a single
(primary extension, secondary extension) pair, which is all the source's
pattern table ever contains per kind. -/
def find_paired_files (file_infos : List FileInfo) (model_type : String)
    (primary_ext secondary_ext : String) (used : List String) :
    List ModelFiles × List String :=
  let primaries := file_infos.filter fun f =>
    f.extension = primary_ext ∧ f.filepath ∉ used
  pairedStep file_infos model_type secondary_ext primaries used

/-- Group patterns of the TensorFlow entry in `MULTI_FILE_PATTERNS`. -/
def tfGroupPatterns : List String := ["checkpoint", ".meta", ".data", ".index"]

/-- Pattern test of `_find_grouped_files`: the pattern occurs in the file
name, or the file's extension occurs in the pattern. -/
def matchesGroupPattern (f : FileInfo) : Bool :=
  tfGroupPatterns.any fun pat => strIn pat f.filename || strIn f.extension pat

/-- `ModelFileAnalyzer._extract_base_name`: strip the extension, then strip
each listed suffix once, in order. -/
def extract_base_name (filename : String) : String :=
  let b0 := (pySplitext filename).1
  ["-00000-of-00001", ".data", ".index", ".meta"].foldl
    (fun b suf => if strEndsWith b suf then String.mk (b.toList.take (b.toList.length - suf.toList.length)) else b) b0

/-- Append a file to the cluster of its base name, preserving the insertion
order of a Python dict. -/
def insertGroup (m : List (String × List FileInfo)) (k : String) (f : FileInfo) :
    List (String × List FileInfo) :=
  match m with
  | [] => [(k, [f])]
  | (k', fs) :: rest =>
    if k' = k then (k', fs ++ [f]) :: rest else (k', fs) :: insertGroup rest k f

/-- The `base_groups` dict of `_find_grouped_files`: cluster the unused
pattern-matching files by extracted base name. -/
def buildGroups (file_infos : List FileInfo) (used : List String) :
    List (String × List FileInfo) :=
  file_infos.foldl
    (fun m f =>
      if f.filepath ∈ used then m
      else if matchesGroupPattern f then insertGroup m (extract_base_name f.filename) f
      else m)
    []

/-- The primary-selection loop over one cluster: the last `.meta`/`.pb` file
becomes the primary, every other file a secondary. -/
def splitCluster (files : List FileInfo) : Option String × List String :=
  files.foldl
    (fun acc f =>
      if f.extension = ".meta" ∨ f.extension = ".pb" then (some f.filepath, acc.2)
      else (acc.1, acc.2 ++ [f.filepath]))
    (none, [])

/-- The cluster loop of `_find_grouped_files`: clusters of at least two
files with a truthy primary become TensorFlow bundles; all files of such a
cluster are marked used. -/
def groupedStep (model_type : String) :
    List (String × List FileInfo) → List String → List ModelFiles × List String
  | [], used => ([], used)
  | (_, files) :: rest, used =>
    if files.length > 1 then
      let pr := splitCluster files
      if pyTruthy pr.1 then
        let g : ModelFiles := ⟨pr.1.getD "", pr.2, [], model_type⟩
        let r := groupedStep model_type rest (used ++ files.map (·.filepath))
        (g :: r.1, r.2)
      else groupedStep model_type rest used
    else groupedStep model_type rest used

/-- `ModelFileAnalyzer._find_grouped_files`. -/
def find_grouped_files (file_infos : List FileInfo) (model_type : String)
    (used : List String) : List ModelFiles × List String :=
  groupedStep model_type (buildGroups file_infos used) used

/-- `ModelFileAnalyzer._identify_single_file_type` over the
`SINGLE_FILE_PATTERNS` table. -/
def identify_single_file_type (extension : String) : String :=
  if extension ∈ [".onnx"] then "onnx"
  else if extension ∈ [".tflite"] then "tflite"
  else if extension ∈ [".pt", ".pth", ".pytorch"] then "pytorch"
  else "unknown"

/-- The remaining single-file pass of `_group_model_files`. -/
def singleStep : List FileInfo → List String → List ModelFiles × List String
  | [], used => ([], used)
  | f :: fs, used =>
    if f.filepath ∉ used ∧ identify_single_file_type f.extension ≠ "unknown" then
      let r := singleStep fs (used ++ [f.filepath])
      (⟨f.filepath, [], [], identify_single_file_type f.extension⟩ :: r.1, r.2)
    else singleStep fs used

/-- The three-variable scan of the exactly-three-files branch of
`_group_model_files`: each matching extension overwrites its slot. -/
def tripleScan : List FileInfo →
    Option String × Option String × Option String →
    Option String × Option String × Option String
  | [], acc => acc
  | f :: fs, (pb, idx, dat) =>
    if f.extension = ".pb" then tripleScan fs (some f.filepath, idx, dat)
    else if f.extension = ".index" then tripleScan fs (pb, some f.filepath, dat)
    else if f.extension = ".data-00000-of-00001" then tripleScan fs (pb, idx, some f.filepath)
    else tripleScan fs (pb, idx, dat)

/-- `ModelFileAnalyzer._group_model_files`: the exactly-three-files
TensorFlow short-circuit, then the Caffe pair pass, the TensorFlow group
pass, the Darknet pair pass (the iteration order of `MULTI_FILE_PATTERNS`)
and finally the single-file pass, all sharing one used-path set. -/
def group_model_files (file_infos : List FileInfo) : List ModelFiles :=
  if file_infos.length = 3 then
    let t := tripleScan file_infos (none, none, none)
    if pyTruthy t.1 ∧ pyTruthy t.2.1 ∧ pyTruthy t.2.2 then
      [⟨t.1.getD "", [t.2.2.getD ""], [t.2.1.getD ""], "tensorflow"⟩]
    else []
  else
    let caffe := find_paired_files file_infos "caffe" ".prototxt" ".caffemodel" []
    let tf := find_grouped_files file_infos "tensorflow" caffe.2
    let dark := find_paired_files file_infos "darknet" ".cfg" ".weights" tf.2
    let single := singleStep file_infos dark.2
    caffe.1 ++ tf.1 ++ dark.1 ++ single.1

/-- `ModelFileAnalyzer._validate_caffe_files`.  File existence plays no role
here; only the primary extension and the secondary names are inspected. -/
def validate_caffe_files (m : ModelFiles) : Bool × String :=
  if strLower (pySplitext m.primary_file).2 = ".prototxt" then
    if m.secondary_files = [] then (false, "Caffe model missing .caffemodel weight file")
    else if m.secondary_files.any (fun f => strEndsWith f ".caffemodel") then (true, "")
    else (false, "Caffe model missing .caffemodel weight file")
  else (true, "")

/-- `ModelFileAnalyzer._validate_darknet_files`. -/
def validate_darknet_files (m : ModelFiles) : Bool × String :=
  if strLower (pySplitext m.primary_file).2 = ".cfg" then
    if m.secondary_files = [] then (false, "Darknet model missing .weights weight file")
    else if m.secondary_files.any (fun f => strEndsWith f ".weights") then (true, "")
    else (false, "Darknet model missing .weights weight file")
  else (true, "")

/-- `ModelFileAnalyzer._validate_tensorflow_files`: some file among
`get_all_files` must carry a `.pb` or `.meta` extension. -/
def validate_tensorflow_files (m : ModelFiles) : Bool × String :=
  if m.get_all_files.any (fun f =>
      strLower (pySplitext f).2 = ".pb" || strLower (pySplitext f).2 = ".meta") then
    (true, "")
  else (false, "TensorFlow model missing graph definition file (.pb or .meta)")

/-- `ModelFileAnalyzer.validate_model_files`.  The filesystem is abstracted
as the existence oracle `ex`; the source asks `os.path.exists`. -/
def validate_model_files (ex : String → Bool) (m : ModelFiles) : Bool × String :=
  if ¬ ex m.primary_file then
    (false, "Primary file does not exist: " ++ m.primary_file)
  else
    match m.secondary_files.find? (fun s => ¬ ex s) with
    | some s => (false, "Auxiliary file does not exist: " ++ s)
    | none =>
      if m.model_type = "caffe" then validate_caffe_files m
      else if m.model_type = "darknet" then validate_darknet_files m
      else if m.model_type = "tensorflow" then validate_tensorflow_files m
      else (true, "")

/-- Values stored in configuration fields.  The source's dataclass holds
booleans, ints, floats, strings, optional values and small nested lists;
floats appear only as literals and are represented exactly as rationals. -/
inductive PyVal where
  | vNone : PyVal
  | vBool : Bool → PyVal
  | vInt : Int → PyVal
  | vRat : ℚ → PyVal
  | vStr : String → PyVal
  | vRatList : List ℚ → PyVal
  | vIntListList : List (List Int) → PyVal
deriving DecidableEq, Repr

/-- The fields of `RKNNConverterConfig` with their default values, in source
order. -/
def rknnDefaultFields : List (String × PyVal) :=
  [("mean_values", .vRatList [0, 0, 0]),
   ("std_values", .vRatList [255, 255, 255]),
   ("quantized_dtype", .vStr "w8a8"),
   ("quantized_algorithm", .vStr "normal"),
   ("quantized_method", .vStr "channel"),
   ("quantized_hybrid_level", .vInt 0),
   ("target_platform", .vStr "rk3588"),
   ("quant_img_RGB2BGR", .vBool false),
   ("float_dtype", .vStr "float16"),
   ("optimization_level", .vInt 3),
   ("custom_string", .vNone),
   ("remove_weight", .vBool false),
   ("compress_weight", .vBool false),
   ("inputs_yuv_fmt", .vNone),
   ("single_core_mode", .vBool false),
   ("dynamic_input", .vNone),
   ("model_pruning", .vBool false),
   ("op_target", .vNone),
   ("quantize_weight", .vBool false),
   ("remove_reshape", .vBool false),
   ("sparse_infer", .vBool false),
   ("enable_flash_attention", .vBool false),
   ("auto_hybrid_cos_thresh", .vRat (49 / 50)),
   ("auto_hybrid_euc_thresh", .vNone),
   ("do_quantization", .vBool true),
   ("dataset", .vStr "./images.txt"),
   ("rknn_batch_size", .vNone),
   ("auto_hybrid", .vBool false),
   ("input_size_list", .vIntListList [[1, 3, 224, 224]])]

/-- Python `getattr` on the field list. -/
def getField : List (String × PyVal) → String → Option PyVal
  | [], _ => none
  | (k', v) :: rest, k => if k' = k then some v else getField rest k

/-- Python `setattr` on the field list: replace the value of an existing
field, leave the list unchanged if the field is absent. -/
def setField : List (String × PyVal) → String → PyVal → List (String × PyVal)
  | [], _, _ => []
  | (k', v') :: rest, k, v =>
    if k' = k then (k, v) :: rest else (k', v') :: setField rest k v

/-- `RKNNConverterConfig.update_config`: for each incoming key/value pair,
`setattr` if `hasattr` holds, silently skip otherwise. -/
def update_config (fields : List (String × PyVal)) (config : List (String × PyVal)) :
    List (String × PyVal) :=
  config.foldl
    (fun fs kv => if kv.1 ∈ fs.map Prod.fst then setField fs kv.1 kv.2 else fs)
    fields

/-- `ConversionTask` dataclass of src/utils/config.py (the fields that
`get_output_path` and the worker read). -/
structure ConversionTask where
  task_id : String
  model_files : ModelFiles
  config : List (String × PyVal)
  output_path : Option String := none
  callback_url : Option String := none
  priority : Int := 0
deriving DecidableEq, Repr

/-- `ConversionTask.get_output_path`: an explicitly supplied (truthy) output
path wins; otherwise join the output folder with
`<model name>_<task id>.rknn`. -/
def ConversionTask.get_output_path (t : ConversionTask)
    (output_folder : String := "./outputs") : String :=
  if pyTruthy t.output_path then t.output_path.getD ""
  else pyJoin output_folder (t.model_files.get_model_name ++ "_" ++ t.task_id ++ ".rknn")

/-- `ConverterWorker._convert_sync`, with the `RKNNConverter.convert` call
(and the file copies feeding it) abstracted as an oracle that either raises
(`Except.error`) or returns the `(success, error)` pair.  Both branches of
the source — the TensorFlow temporary-directory branch and the plain branch —
run the converter and post-process its answer identically, so one oracle
covers them; the enclosing `try/except` turns any exception into
`(False, "Conversion process exception: ...")`, and a failing converter's
optional error message goes through Python `str`. -/
def convert_sync (conversion : Except String (Bool × Option String)) :
    Bool × Option String :=
  match conversion with
  | .error e => (false, some ("Conversion process exception: " ++ e))
  | .ok (true, _) => (true, none)
  | .ok (false, err) => (false, some (pyStrOpt err))

/-- `ConverterWorker._perform_conversion`: runs `_convert_sync` in an
executor; its own `try/except` can only fire on executor-submission failure,
which the shallow embedding has no counterpart for, so it is the identity on
the `_convert_sync` result. -/
def perform_conversion (conversion : Except String (Bool × Option String)) :
    Bool × Option String :=
  convert_sync conversion

/-- `ConverterWorker.convert`: the whole body sits in a `try/except` which
converts any exception into `(False, "Exception occurred during conversion:
...")`.  `_validate_input` and `_prepare_output_path` are abstracted as
oracles that either raise or return their value (a boolean verdict, and the
output path); the conversion oracle is passed on to `_perform_conversion`. -/
def ConverterWorker.convert (validation : Except String Bool)
    (preparation : Except String String)
    (conversion : Except String (Bool × Option String)) : Bool × Option String :=
  match validation with
  | .error e => (false, some ("Exception occurred during conversion: " ++ e))
  | .ok false => (false, some "Input file validation failed")
  | .ok true =>
    match preparation with
    | .error e => (false, some ("Exception occurred during conversion: " ++ e))
    | .ok output_path =>
      match perform_conversion conversion with
      | (true, _) => (true, some output_path)
      | (false, err) => (false, err)

/-- Modelled from the spec: the scheduler/worker-pool module (`task_manager`)
is imported by the server and the worker but is not part of the source tree,
so its job lifecycle is modelled from the design document: a job is
`Pending` after admission, `Running` while it occupies one of the `W` worker
slots, and `Completed`/`Failed`/`Cancelled` terminally. -/
inductive JobStatus where
  | pending : JobStatus
  | running : Nat → JobStatus
  | completed : JobStatus
  | failed : JobStatus
  | cancelled : JobStatus
deriving DecidableEq, Repr

/-- Modelled from the spec: the scheduler's tracked job map, as an ordered
association list from job id to status. -/
structure PoolState where
  jobs : List (Nat × JobStatus)
deriving DecidableEq, Repr

/-- The slots of a status: a running job occupies exactly one slot. -/
def statusSlots : JobStatus → List Nat
  | .running w => [w]
  | _ => []

/-- The worker slots currently occupied by jobs of the state. -/
def runningSlots (s : PoolState) : List Nat :=
  s.jobs.flatMap fun jk => statusSlots jk.2

/-- The number of jobs currently in the `Running` status. -/
def countRunning (s : PoolState) : Nat :=
  (s.jobs.filter fun jk => match jk.2 with | .running _ => true | _ => false).length

/-- Overwrite the status of one tracked job id. -/
def setStatus (s : PoolState) (id : Nat) (st : JobStatus) : PoolState :=
  ⟨s.jobs.map fun jk => if jk.1 = id then (jk.1, st) else jk⟩

/-- Modelled from the spec: the transitions of the scheduling loop and the
worker pool.  `submit` admits a fresh id as `Pending`; `claim` lets a free
slot (an index below `W` not servicing any job) take a `Pending` job to
`Running`; a running job finishes `Completed` or `Failed`, releasing its
slot; `cancel` is synchronous on `Pending` jobs only. -/
inductive PoolStep (W : Nat) : PoolState → PoolState → Prop where
  | submit (s : PoolState) (id : Nat) :
      id ∉ s.jobs.map Prod.fst → PoolStep W s ⟨s.jobs ++ [(id, .pending)]⟩
  | claim (s : PoolState) (id w : Nat) :
      (id, .pending) ∈ s.jobs → w < W → w ∉ runningSlots s →
      PoolStep W s (setStatus s id (.running w))
  | finishOk (s : PoolState) (id w : Nat) :
      (id, .running w) ∈ s.jobs → PoolStep W s (setStatus s id .completed)
  | finishErr (s : PoolState) (id w : Nat) :
      (id, .running w) ∈ s.jobs → PoolStep W s (setStatus s id .failed)
  | cancelPending (s : PoolState) (id : Nat) :
      (id, .pending) ∈ s.jobs → PoolStep W s (setStatus s id .cancelled)

/-- States reachable from the empty tracked-job map. -/
inductive PoolReachable (W : Nat) : PoolState → Prop where
  | init : PoolReachable W ⟨[]⟩
  | step {s t : PoolState} : PoolReachable W s → PoolStep W s t → PoolReachable W t

/-- The pool invariant: tracked ids are unique, no slot services two jobs,
and every occupied slot is one of the `W` slots. -/
def PoolInv (W : Nat) (s : PoolState) : Prop :=
  (s.jobs.map Prod.fst).Nodup ∧ (runningSlots s).Nodup ∧ ∀ w ∈ runningSlots s, w < W

/-- All paths carried by a bundle, in every role. -/
def bundleFiles (m : ModelFiles) : List String :=
  m.primary_file :: (m.secondary_files ++ m.additional_files)

/-- Modelled from the spec: the fuzzy fallback as the specification words it
for claim C5 — the strategies are tried in the order (a) shared domain
keyword from the fixed vocabulary, (b) substring containment of one base
name in the other, (c) shared substring of length at least 3, (d)
elimination when exactly one unused candidate remains, and the first
satisfying strategy determines the chosen candidate.  This definition is the
comparison point for the source's `_find_fuzzy_match` above. -/
def fuzzyMatchSpecOrder (primary : FileInfo) (secondary_ext : String)
    (file_infos : List FileInfo) (used : List String) : List String :=
  let primary_base := strLower (pySplitext primary.filename).1
  let sbase := fun f : FileInfo => strLower (pySplitext f.filename).1
  let cands := file_infos.filter fun f =>
    f.extension = secondary_ext ∧ f.filepath ∉ used
  match cands.find? (fun f =>
      commonKeywords.any fun k => strIn k primary_base && strIn k (sbase f)) with
  | some f => [f.filepath]
  | none =>
    match cands.find? (fun f =>
        strIn primary_base (sbase f) || strIn (sbase f) primary_base) with
    | some f => [f.filepath]
    | none =>
      match cands.find? (fun f => hasCommonSubstring3 primary_base (sbase f)) with
      | some f => [f.filepath]
      | none => match cands with | [f] => [f.filepath] | _ => []

/-- Override semantics of one slot of `tripleScan`: the path of the last
file carrying the given extension, or the accumulator if none occurs. -/
def lastPath (e : String) : List FileInfo → Option String → Option String
  | [], acc => acc
  | f :: fs, acc => lastPath e fs (if f.extension = e then some f.filepath else acc)

/-- Override semantics of the primary-selection loop of `splitCluster`: the
path of the last `.meta`/`.pb` file, or the accumulator if none occurs. -/
def lastMPPath : List FileInfo → Option String → Option String
  | [], acc => acc
  | f :: fs, acc =>
    lastMPPath fs
      (if f.extension = ".meta" ∨ f.extension = ".pb" then some f.filepath else acc)

/-- Well-formedness of one classifier pass: run against the input `l` with
the used-path set `used`, producing the bundles `gs` and the new used-path
set `used'`.  Every bundle path comes from the input and was unused on
entry, every bundle is internally duplicate-free, bundles are pairwise
disjoint, the used set only grows, and every emitted bundle path is
recorded as used. -/
def PhaseOK (l : List FileInfo) (used : List String) (gs : List ModelFiles)
    (used' : List String) : Prop :=
  (∀ b ∈ gs, ∀ q ∈ bundleFiles b, (∃ f ∈ l, f.filepath = q) ∧ q ∉ used) ∧
  (∀ b ∈ gs, (bundleFiles b).Nodup) ∧
  gs.Pairwise (fun b b' => ∀ q ∈ bundleFiles b, q ∉ bundleFiles b') ∧
  (∀ x ∈ used, x ∈ used') ∧
  (∀ b ∈ gs, ∀ q ∈ bundleFiles b, q ∈ used')

theorem map_fst_setField (fs : List (String × PyVal)) (k : String) (v : PyVal) :
    (setField fs k v).map Prod.fst = fs.map Prod.fst := by
  induction fs with
  | nil => rfl
  | cons hd tl ih =>
    obtain ⟨k', v'⟩ := hd
    by_cases h : k' = k
    · simp [setField, h]
    · simp [setField, h, ih]

theorem getField_setField_self (fs : List (String × PyVal)) (k : String) (v : PyVal)
    (h : k ∈ fs.map Prod.fst) : getField (setField fs k v) k = some v := by
  induction fs with
  | nil => simp at h
  | cons hd tl ih =>
    obtain ⟨k', v'⟩ := hd
    by_cases hk : k' = k
    · simp [setField, hk, getField]
    · have htl : k ∈ tl.map Prod.fst := by
        simp only [List.map_cons, List.mem_cons] at h
        rcases h with h | h
        · exact absurd h.symm hk
        · exact h
      simp [setField, hk, getField, ih htl]

theorem getField_setField_ne (fs : List (String × PyVal)) (k k' : String) (v : PyVal)
    (h : k' ≠ k) : getField (setField fs k v) k' = getField fs k' := by
  induction fs with
  | nil => rfl
  | cons hd tl ih =>
    obtain ⟨k0, v0⟩ := hd
    by_cases hk : k0 = k
    · subst hk
      simp [setField, getField, Ne.symm h]
    · by_cases hk' : k0 = k'
      · simp [setField, hk, getField, hk', h]
      · simp [setField, hk, getField, hk', ih]

/-- C6 — `update_config` overwrites exactly the incoming keys that exist on
the configuration (the key set never changes), leaves every other field at
its previous value, and silently ignores unknown keys. -/
theorem update_config_frame :
    ∀ (fields config : List (String × PyVal)), (config.map Prod.fst).Nodup →
    ((update_config fields config).map Prod.fst = fields.map Prod.fst) ∧
    (∀ k v, (k, v) ∈ config → k ∈ fields.map Prod.fst →
      getField (update_config fields config) k = some v) ∧
    (∀ k, k ∉ config.map Prod.fst →
      getField (update_config fields config) k = getField fields k) ∧
    (∀ k v, (k, v) ∈ config → k ∉ fields.map Prod.fst →
      getField (update_config fields config) k = getField fields k) := by
  intro fields config
  induction config generalizing fields with
  | nil => intro _; refine ⟨rfl, ?_, ?_, ?_⟩ <;> simp [update_config]
  | cons hd tl ih =>
    obtain ⟨k0, v0⟩ := hd
    intro hnd
    have hcons : (k0 :: tl.map Prod.fst).Nodup := by
      simpa only [List.map_cons] using hnd
    have hk0 : k0 ∉ tl.map Prod.fst := (List.nodup_cons.mp hcons).1
    have hndtl : (tl.map Prod.fst).Nodup := (List.nodup_cons.mp hcons).2
    set fields' := if k0 ∈ fields.map Prod.fst then setField fields k0 v0 else fields with hf'
    have hstep : update_config fields ((k0, v0) :: tl) = update_config fields' tl := by
      simp only [update_config, List.foldl_cons, hf']
    have hkeys' : fields'.map Prod.fst = fields.map Prod.fst := by
      rw [hf']; split
      · exact map_fst_setField fields k0 v0
      · rfl
    obtain ⟨A, B, C, D⟩ := ih fields' hndtl
    rw [hstep]
    refine ⟨A.trans hkeys', ?_, ?_, ?_⟩
    · intro k v hmem hkf
      rcases List.mem_cons.mp hmem with heq | htl
      · have hk : k = k0 := congrArg Prod.fst heq
        have hv : v = v0 := congrArg Prod.snd heq
        subst hk; subst hv
        rw [C k hk0, hf', if_pos hkf]
        exact getField_setField_self fields k v hkf
      · exact B k v htl (hkeys' ▸ hkf)
    · intro k hk
      have hk1 : k ≠ k0 := by intro h; exact hk (by simp [h])
      have hk2 : k ∉ tl.map Prod.fst := by intro h; exact hk (by simp [h])
      rw [C k hk2, hf']
      split
      · exact getField_setField_ne fields k0 k v0 hk1
      · rfl
    · intro k v hmem hkf
      rcases List.mem_cons.mp hmem with heq | htl
      · have hk : k = k0 := congrArg Prod.fst heq
        have hv : v = v0 := congrArg Prod.snd heq
        subst hk; subst hv
        rw [C k hk0, hf', if_neg hkf]
      · have hkk0 : k ≠ k0 := by
          intro h; subst h
          exact hk0 (by simpa using List.mem_map_of_mem Prod.fst htl)
        rw [D k v htl (hkeys' ▸ hkf), hf']
        split
        · exact getField_setField_ne fields k0 k v0 hkk0
        · rfl

/-- Witness for C6 at the source's default configuration: an incoming map
naming one real field and one unknown field updates exactly the real one. -/
theorem update_config_frame_witness :
    getField (update_config rknnDefaultFields
      [("target_platform", .vStr "rk3566"), ("bogus_field", .vInt 7)]) "target_platform"
        = some (.vStr "rk3566") ∧
    getField (update_config rknnDefaultFields
      [("target_platform", .vStr "rk3566"), ("bogus_field", .vInt 7)]) "mean_values"
        = some (.vRatList [0, 0, 0]) ∧
    (update_config rknnDefaultFields
      [("target_platform", .vStr "rk3566"), ("bogus_field", .vInt 7)]).map Prod.fst
        = rknnDefaultFields.map Prod.fst := by
  obtain ⟨hA, hB, hC, hD⟩ := update_config_frame rknnDefaultFields
    [("target_platform", .vStr "rk3566"), ("bogus_field", .vInt 7)] (by decide)
  refine ⟨?_, ?_, hA⟩
  · exact hB "target_platform" (.vStr "rk3566") (by decide) (by decide)
  · rw [hC "mean_values" (by decide)]; decide

/-- C7 — a supplied (truthy) output path is returned unchanged; otherwise the
output path is the output folder joined with
`<primary base name>_<task id>.rknn`. -/
theorem get_output_path_spec :
    ∀ (t : ConversionTask) (folder : String),
    (∀ s, t.output_path = some s → s ≠ "" → t.get_output_path folder = s) ∧
    ((t.output_path = none ∨ t.output_path = some "") →
      t.get_output_path folder =
        pyJoin folder ((pySplitext (pyBasename t.model_files.primary_file)).1
          ++ "_" ++ t.task_id ++ ".rknn")) := by
  intro t folder
  constructor
  · intro s hs hne
    simp [ConversionTask.get_output_path, pyTruthy, hs, hne]
  · intro h
    rcases h with h | h <;>
      simp [ConversionTask.get_output_path, pyTruthy, h, ModelFiles.get_model_name]

/-- Witness for C7: a task without an explicit output path derives
`./outputs/net_abc123.rknn`, and one with an explicit path returns it. -/
theorem get_output_path_spec_witness :
    (ConversionTask.mk "abc123" ⟨"/up/net.onnx", [], [], "onnx"⟩ [] none none 0).get_output_path
      "./outputs" = "./outputs/net_abc123.rknn" ∧
    (ConversionTask.mk "abc123" ⟨"/up/net.onnx", [], [], "onnx"⟩ [] (some "/o/x.rknn") none 0).get_output_path
      "./outputs" = "/o/x.rknn" := by
  constructor
  · rw [(get_output_path_spec (ConversionTask.mk "abc123" ⟨"/up/net.onnx", [], [], "onnx"⟩ [] none none 0)
      "./outputs").2 (Or.inl rfl)]
    decide
  · exact (get_output_path_spec (ConversionTask.mk "abc123" ⟨"/up/net.onnx", [], [], "onnx"⟩ [] (some "/o/x.rknn") none 0)
      "./outputs").1 "/o/x.rknn" rfl (by decide)

/-- C8 — the worker's `convert` never lets an exception escape: every raising
stage (validation, path preparation, the conversion routine) is mapped to a
`(false, message)` answer that preserves the raised message, a failing
validation and a failing converter map to `(false, message)`, and
`(true, path)` is returned exactly on a successful conversion. -/
theorem worker_convert_contains_failures :
    ∀ (v : Except String Bool) (p : Except String String)
      (c : Except String (Bool × Option String)),
    (∀ e, v = .error e → ConverterWorker.convert v p c =
      (false, some ("Exception occurred during conversion: " ++ e))) ∧
    (v = .ok false → ConverterWorker.convert v p c =
      (false, some "Input file validation failed")) ∧
    (∀ e, v = .ok true → p = .error e → ConverterWorker.convert v p c =
      (false, some ("Exception occurred during conversion: " ++ e))) ∧
    (∀ out e, v = .ok true → p = .ok out → c = .error e →
      ConverterWorker.convert v p c =
        (false, some ("Conversion process exception: " ++ e))) ∧
    (∀ out err, v = .ok true → p = .ok out → c = .ok (false, err) →
      ConverterWorker.convert v p c = (false, some (pyStrOpt err))) ∧
    ((ConverterWorker.convert v p c).1 = true ↔
      v = .ok true ∧ ∃ out m, p = .ok out ∧ c = .ok (true, m) ∧
        ConverterWorker.convert v p c = (true, some out)) := by
  intro v p c
  refine ⟨?_, ?_, ?_, ?_, ?_, ?_⟩
  · intro e he; simp [ConverterWorker.convert, he]
  · intro hv; simp [ConverterWorker.convert, hv]
  · intro e hv hp; simp [ConverterWorker.convert, hv, hp]
  · intro out e hv hp hc
    simp [ConverterWorker.convert, hv, hp, hc, perform_conversion, convert_sync]
  · intro out err hv hp hc
    simp [ConverterWorker.convert, hv, hp, hc, perform_conversion, convert_sync]
  · constructor
    · intro h
      match v with
      | .error e => simp [ConverterWorker.convert] at h
      | .ok false => simp [ConverterWorker.convert] at h
      | .ok true =>
        refine ⟨rfl, ?_⟩
        match p with
        | .error e => simp [ConverterWorker.convert] at h
        | .ok out =>
          match c with
          | .error e =>
            simp [ConverterWorker.convert, perform_conversion, convert_sync] at h
          | .ok (false, err) =>
            simp [ConverterWorker.convert, perform_conversion, convert_sync] at h
          | .ok (true, m) =>
            exact ⟨out, m, rfl, rfl, by
              simp [ConverterWorker.convert, perform_conversion, convert_sync]⟩
    · rintro ⟨hv, out, m, hp, hc, _⟩
      simp [ConverterWorker.convert, hv, hp, hc, perform_conversion, convert_sync]

/-- Witness for C8: a raising validation stage yields a contained failure
with the exception text preserved, and a successful run returns the output
path. -/
theorem worker_convert_contains_failures_witness :
    ConverterWorker.convert (.error "boom") (.ok "/o/m.rknn") (.ok (true, none)) =
      (false, some "Exception occurred during conversion: boom") ∧
    ConverterWorker.convert (.ok true) (.ok "/o/m.rknn") (.ok (true, none)) =
      (true, some "/o/m.rknn") := by
  constructor
  · exact (worker_convert_contains_failures (.error "boom") (.ok "/o/m.rknn")
      (.ok (true, none))).1 "boom" rfl
  · have h := (worker_convert_contains_failures (.ok true) (.ok "/o/m.rknn")
      (.ok (true, none))).2.2.2.2.2
    rfl

theorem tripleScan_eq (l : List FileInfo) :
    ∀ acc, tripleScan l acc =
      (lastPath ".pb" l acc.1, lastPath ".index" l acc.2.1,
       lastPath ".data-00000-of-00001" l acc.2.2) := by
  induction l with
  | nil => intro acc; rfl
  | cons f fs ih =>
    rintro ⟨pb, idx, dat⟩
    by_cases h1 : f.extension = ".pb"
    · have h2 : f.extension ≠ ".index" := by rw [h1]; decide
      have h3 : f.extension ≠ ".data-00000-of-00001" := by rw [h1]; decide
      simp [tripleScan, lastPath, h1, h2, h3, ih]
    · by_cases h2 : f.extension = ".index"
      · have h3 : f.extension ≠ ".data-00000-of-00001" := by rw [h2]; decide
        simp [tripleScan, lastPath, h1, h2, h3, ih]
      · by_cases h3 : f.extension = ".data-00000-of-00001"
        · simp [tripleScan, lastPath, h1, h2, h3, ih]
        · simp [tripleScan, lastPath, h1, h2, h3, ih]

theorem lastPath_of_filter_nil (e : String) (l : List FileInfo) :
    ∀ acc, l.filter (fun f => f.extension = e) = [] → lastPath e l acc = acc := by
  induction l with
  | nil => intro acc _; rfl
  | cons f fs ih =>
    intro acc h
    by_cases hf : f.extension = e
    · simp [List.filter_cons, hf] at h
    · rw [List.filter_cons_of_neg (by simpa using hf)] at h
      simp [lastPath, hf, ih _ h]

theorem lastPath_of_filter_singleton (e : String) (l : List FileInfo) (a : FileInfo) :
    ∀ acc, l.filter (fun f => f.extension = e) = [a] → lastPath e l acc = some a.filepath := by
  induction l with
  | nil => intro acc h; simp at h
  | cons f fs ih =>
    intro acc h
    by_cases hf : f.extension = e
    · rw [List.filter_cons_of_pos (by simpa using hf)] at h
      have hfa : f = a := (List.cons_eq_cons.mp h).1
      have hrest : fs.filter (fun f => f.extension = e) = [] := (List.cons_eq_cons.mp h).2
      rw [lastPath, if_pos hf, lastPath_of_filter_nil e fs _ hrest, hfa]
    · rw [List.filter_cons_of_neg (by simpa using hf)] at h
      rw [lastPath, if_neg hf]
      exact ih _ h

/-- C1 — any permutation of three files carrying exactly the TensorFlow
triple of extensions (`.pb`, `.index`, `.data-00000-of-00001`, one file
each, with non-empty paths) classifies as exactly one TensorFlow bundle
whose primary is the `.pb` file, whose sole secondary is the data shard and
whose sole additional file is the index file. -/
theorem classify_tensorflow_triple :
    ∀ (l : List FileInfo) (a b c : FileInfo),
    l.Perm [a, b, c] →
    a.extension = ".pb" → b.extension = ".index" →
    c.extension = ".data-00000-of-00001" →
    a.filepath ≠ "" → b.filepath ≠ "" → c.filepath ≠ "" →
    group_model_files l = [⟨a.filepath, [c.filepath], [b.filepath], "tensorflow"⟩] := by
  intro l a b c hperm ha hb hc hpa hpb hpc
  have hlen : l.length = 3 := by rw [hperm.length_eq]; rfl
  have hfa : l.filter (fun f => f.extension = ".pb") = [a] := by
    apply List.perm_singleton.mp
    have := hperm.filter (fun f => decide (f.extension = ".pb"))
    rwa [show ([a, b, c].filter fun f => f.extension = ".pb") = [a] by
      simp [List.filter_cons, ha, hb, hc]] at this
  have hfb : l.filter (fun f => f.extension = ".index") = [b] := by
    apply List.perm_singleton.mp
    have := hperm.filter (fun f => decide (f.extension = ".index"))
    rwa [show ([a, b, c].filter fun f => f.extension = ".index") = [b] by
      simp [List.filter_cons, ha, hb, hc]] at this
  have hfc : l.filter (fun f => f.extension = ".data-00000-of-00001") = [c] := by
    apply List.perm_singleton.mp
    have := hperm.filter (fun f => decide (f.extension = ".data-00000-of-00001"))
    rwa [show ([a, b, c].filter fun f => f.extension = ".data-00000-of-00001") = [c] by
      simp [List.filter_cons, ha, hb, hc]] at this
  rw [group_model_files, if_pos hlen, tripleScan_eq,
    lastPath_of_filter_singleton ".pb" l a _ hfa,
    lastPath_of_filter_singleton ".index" l b _ hfb,
    lastPath_of_filter_singleton ".data-00000-of-00001" l c _ hfc]
  simp [pyTruthy, hpa, hpb, hpc]

/-- Witness for C1: a concrete permuted TensorFlow triple. -/
theorem classify_tensorflow_triple_witness :
    group_model_files
      [⟨"m.index", "/u/m.index", ".index", 1⟩,
       ⟨"m.data-00000-of-00001", "/u/m.data-00000-of-00001", ".data-00000-of-00001", 9⟩,
       ⟨"m.pb", "/u/m.pb", ".pb", 4⟩] =
      [⟨"/u/m.pb", ["/u/m.data-00000-of-00001"], ["/u/m.index"], "tensorflow"⟩] :=
  classify_tensorflow_triple _
    ⟨"m.pb", "/u/m.pb", ".pb", 4⟩
    ⟨"m.index", "/u/m.index", ".index", 1⟩
    ⟨"m.data-00000-of-00001", "/u/m.data-00000-of-00001", ".data-00000-of-00001", 9⟩
    (by decide) rfl rfl rfl (by decide) (by decide) (by decide)

/-- C3 — a three-file input that does not carry the full TensorFlow
extension triple classifies to the empty list: no pairing, grouping or
single-file rule ever fires on a three-file input. -/
theorem classify_three_files_otherwise_empty :
    ∀ l : List FileInfo, l.length = 3 →
    ¬ ((∃ f ∈ l, f.extension = ".pb") ∧ (∃ f ∈ l, f.extension = ".index") ∧
       (∃ f ∈ l, f.extension = ".data-00000-of-00001")) →
    group_model_files l = [] := by
  intro l hlen hmiss
  rw [group_model_files, if_pos hlen, tripleScan_eq]
  rcases not_and_or.mp hmiss with h | h
  · have hf : l.filter (fun f => f.extension = ".pb") = [] := by
      rw [List.filter_eq_nil_iff]
      intro f hfl
      simp only [decide_eq_true_eq]
      exact fun he => h ⟨f, hfl, he⟩
    rw [lastPath_of_filter_nil ".pb" l _ hf]
    simp [pyTruthy]
  · rcases not_and_or.mp h with h | h
    · have hf : l.filter (fun f => f.extension = ".index") = [] := by
        rw [List.filter_eq_nil_iff]
        intro f hfl
        simp only [decide_eq_true_eq]
        exact fun he => h ⟨f, hfl, he⟩
      rw [lastPath_of_filter_nil ".index" l _ hf]
      simp [pyTruthy]
    · have hf : l.filter (fun f => f.extension = ".data-00000-of-00001") = [] := by
        rw [List.filter_eq_nil_iff]
        intro f hfl
        simp only [decide_eq_true_eq]
        exact fun he => h ⟨f, hfl, he⟩
      rw [lastPath_of_filter_nil ".data-00000-of-00001" l _ hf]
      simp [pyTruthy]

/-- Witness for C3: a three-file input holding a perfectly matched Caffe pair
and an ONNX file classifies to nothing at all. -/
theorem classify_three_files_otherwise_empty_witness :
    group_model_files
      [⟨"net.prototxt", "/u/net.prototxt", ".prototxt", 1⟩,
       ⟨"net.caffemodel", "/u/net.caffemodel", ".caffemodel", 9⟩,
       ⟨"d.onnx", "/u/d.onnx", ".onnx", 4⟩] = [] :=
  classify_three_files_otherwise_empty _ (by decide) (by decide)

theorem find?_first_failing (ex : String → Bool) :
    ∀ (pre : List String) (s : String) (post : List String),
    (∀ t ∈ pre, ex t = true) → ex s = false →
    (pre ++ s :: post).find? (fun t => ¬ ex t) = some s := by
  intro pre s post hpre hs
  induction pre with
  | nil => simp [List.find?_cons, hs]
  | cons t ts ih =>
    have ht : ex t = true := hpre t (by simp)
    simp only [List.cons_append, List.find?_cons, ht]
    simpa using ih fun u hu => hpre u (by simp [hu])

/-- C4 — `validate_model_files` checks primary existence, then each
secondary file's existence in order, then kind-specific completeness,
returning the first violated reason; a Caffe bundle with a `.prototxt`
primary, all secondary files existing, and no secondary ending in
`.caffemodel` is rejected with exactly the reason
"Caffe model missing .caffemodel weight file". -/
theorem validate_checks_in_order :
    ∀ (ex : String → Bool) (m : ModelFiles),
    (ex m.primary_file = false → validate_model_files ex m =
      (false, "Primary file does not exist: " ++ m.primary_file)) ∧
    (∀ pre s post, ex m.primary_file = true → m.secondary_files = pre ++ s :: post →
      (∀ t ∈ pre, ex t = true) → ex s = false →
      validate_model_files ex m = (false, "Auxiliary file does not exist: " ++ s)) ∧
    (ex m.primary_file = true → (∀ t ∈ m.secondary_files, ex t = true) →
      m.model_type = "caffe" → strLower (pySplitext m.primary_file).2 = ".prototxt" →
      m.secondary_files.any (fun f => strEndsWith f ".caffemodel") = false →
      validate_model_files ex m = (false, "Caffe model missing .caffemodel weight file")) ∧
    (ex m.primary_file = true → (∀ t ∈ m.secondary_files, ex t = true) →
      m.model_type = "caffe" → strLower (pySplitext m.primary_file).2 = ".prototxt" →
      m.secondary_files.any (fun f => strEndsWith f ".caffemodel") = true →
      validate_model_files ex m = (true, "")) ∧
    (ex m.primary_file = true → (∀ t ∈ m.secondary_files, ex t = true) →
      m.model_type ≠ "caffe" → m.model_type ≠ "darknet" → m.model_type ≠ "tensorflow" →
      validate_model_files ex m = (true, "")) := by
  intro ex m
  refine ⟨?_, ?_, ?_, ?_, ?_⟩
  · intro h
    simp [validate_model_files, h]
  · intro pre s post hp hsec hpre hs
    rw [validate_model_files, if_neg (by simp [hp]), hsec,
      find?_first_failing ex pre s post hpre hs]
  · intro hp hall hmt hext hany
    have hfind : m.secondary_files.find? (fun t => ¬ ex t) = none :=
      List.find?_eq_none.mpr fun t ht => by simp [hall t ht]
    rw [validate_model_files, if_neg (by simp [hp]), hfind]
    by_cases hnil : m.secondary_files = []
    · simp [hmt, validate_caffe_files, hext, hnil]
    · simp [hmt, validate_caffe_files, hext, hnil, hany]
  · intro hp hall hmt hext hany
    have hfind : m.secondary_files.find? (fun t => ¬ ex t) = none :=
      List.find?_eq_none.mpr fun t ht => by simp [hall t ht]
    have hnil : m.secondary_files ≠ [] := by
      intro h; rw [h] at hany; simp at hany
    rw [validate_model_files, if_neg (by simp [hp]), hfind]
    simp [hmt, validate_caffe_files, hext, hnil, hany]
  · intro hp hall h1 h2 h3
    have hfind : m.secondary_files.find? (fun t => ¬ ex t) = none :=
      List.find?_eq_none.mpr fun t ht => by simp [hall t ht]
    rw [validate_model_files, if_neg (by simp [hp]), hfind]
    simp [h1, h2, h3]

/-- Witness for C4: a Caffe bundle whose only (existing) secondary file is
not a `.caffemodel` is rejected with the weight-file reason, and one whose
primary file is absent is rejected with the primary-file reason. -/
theorem validate_checks_in_order_witness :
    validate_model_files (fun s => s ∈ ["/u/a.prototxt", "/u/b.bin"])
      ⟨"/u/a.prototxt", ["/u/b.bin"], [], "caffe"⟩ =
      (false, "Caffe model missing .caffemodel weight file") ∧
    validate_model_files (fun s => s ∈ ["/u/a.prototxt", "/u/b.bin"])
      ⟨"/u/gone.prototxt", ["/u/b.bin"], [], "caffe"⟩ =
      (false, "Primary file does not exist: /u/gone.prototxt") := by
  constructor
  · exact (validate_checks_in_order (fun s => s ∈ ["/u/a.prototxt", "/u/b.bin"])
      ⟨"/u/a.prototxt", ["/u/b.bin"], [], "caffe"⟩).2.2.1
      (by decide) (by decide) rfl (by decide) (by decide)
  · exact (validate_checks_in_order (fun s => s ∈ ["/u/a.prototxt", "/u/b.bin"])
      ⟨"/u/gone.prototxt", ["/u/b.bin"], [], "caffe"⟩).1 (by decide)

theorem fuzzyScan_eq_find? (primary_base secondary_ext : String) (used : List String) :
    ∀ file_infos : List FileInfo,
    fuzzyScan primary_base secondary_ext used file_infos =
      match (file_infos.filter fun f =>
          f.extension = secondary_ext ∧ f.filepath ∉ used).find? (fun f =>
            has_common_keywords primary_base (strLower (pySplitext f.filename).1) ||
            (strIn primary_base (strLower (pySplitext f.filename).1) ||
             strIn (strLower (pySplitext f.filename).1) primary_base)) with
      | some f => [f.filepath]
      | none => [] := by
  intro fis
  induction fis with
  | nil => rfl
  | cons f fs ih =>
    by_cases hcand : f.extension = secondary_ext ∧ f.filepath ∉ used
    · rw [List.filter_cons_of_pos (by simpa using hcand)]
      by_cases hkw : has_common_keywords primary_base (strLower (pySplitext f.filename).1)
      · simp [fuzzyScan, hcand, hkw, List.find?_cons]
      · by_cases hcont : (strIn primary_base (strLower (pySplitext f.filename).1) ||
            strIn (strLower (pySplitext f.filename).1) primary_base) = true
        · simp [fuzzyScan, hcand, hkw, hcont, List.find?_cons]
        · simp only [fuzzyScan, if_pos hcand]
          rw [if_neg (by simpa using hkw), if_neg (by simpa using hcont)]
          rw [ih]
          have : (has_common_keywords primary_base (strLower (pySplitext f.filename).1) ||
              (strIn primary_base (strLower (pySplitext f.filename).1) ||
               strIn (strLower (pySplitext f.filename).1) primary_base)) = false := by
            simp only [Bool.or_eq_false_iff]
            exact ⟨by simpa using hkw, by simpa using hcont⟩
          simp [List.find?_cons, this]
    · rw [List.filter_cons_of_neg (by simpa using hcand)]
      simp only [fuzzyScan, if_neg hcand]
      exact ih

theorem find_fuzzy_match_eq (primary : FileInfo) (secondary_ext : String)
    (file_infos : List FileInfo) (used : List String) :
    find_fuzzy_match primary secondary_ext file_infos used =
      (match (file_infos.filter fun f =>
          f.extension = secondary_ext ∧ f.filepath ∉ used).find? (fun f =>
            has_common_keywords (strLower (pySplitext primary.filename).1)
              (strLower (pySplitext f.filename).1) ||
            (strIn (strLower (pySplitext primary.filename).1)
              (strLower (pySplitext f.filename).1) ||
             strIn (strLower (pySplitext f.filename).1)
              (strLower (pySplitext primary.filename).1))) with
      | some f => [f.filepath]
      | none =>
        match file_infos.filter (fun f =>
            f.extension = secondary_ext ∧ f.filepath ∉ used) with
        | [f] => [f.filepath]
        | _ => []) := by
  rw [find_fuzzy_match, fuzzyScan_eq_find?]
  cases hfind : (file_infos.filter fun f =>
      f.extension = secondary_ext ∧ f.filepath ∉ used).find? (fun f =>
        has_common_keywords (strLower (pySplitext primary.filename).1)
          (strLower (pySplitext f.filename).1) ||
        (strIn (strLower (pySplitext primary.filename).1)
          (strLower (pySplitext f.filename).1) ||
         strIn (strLower (pySplitext f.filename).1)
          (strLower (pySplitext primary.filename).1))) with
  | none => simp
  | some f => simp

/-- C5, counterexample — the source does not try the spec's strategies in
the order (a) keyword, (b) containment, (c) shared substring, (d)
elimination: for the primary base name "abcd" with candidates "zabcz"
(shared substring only) before "ab" (containment only), the spec order
chooses the containment candidate while `_find_fuzzy_match` chooses the
earlier shared-substring candidate, because the code tests (a) and (c)
together per candidate, in file order, before ever testing (b). -/
theorem fuzzy_strategy_order_counterexample :
    find_fuzzy_match ⟨"abcd.prototxt", "/u/abcd.prototxt", ".prototxt", 1⟩ ".caffemodel"
      [⟨"zabcz.caffemodel", "/u/zabcz.caffemodel", ".caffemodel", 1⟩,
       ⟨"ab.caffemodel", "/u/ab.caffemodel", ".caffemodel", 1⟩] [] =
      ["/u/zabcz.caffemodel"] ∧
    fuzzyMatchSpecOrder ⟨"abcd.prototxt", "/u/abcd.prototxt", ".prototxt", 1⟩ ".caffemodel"
      [⟨"zabcz.caffemodel", "/u/zabcz.caffemodel", ".caffemodel", 1⟩,
       ⟨"ab.caffemodel", "/u/ab.caffemodel", ".caffemodel", 1⟩] [] =
      ["/u/ab.caffemodel"] := by
  constructor
  · decide
  · decide

/-- C5, amended — the fuzzy fallback scans the unused candidates of the
secondary extension in input order and chooses the first one satisfying
keyword-or-shared-substring (the source's combined helper) or containment;
only if no candidate satisfies either does elimination fire, when exactly
one unused candidate remains.  The chosen candidate is exactly the returned
secondary list (its caller marks it used). -/
theorem fuzzy_match_first_candidate :
    ∀ (primary : FileInfo) (secondary_ext : String)
      (file_infos : List FileInfo) (used : List String),
    find_fuzzy_match primary secondary_ext file_infos used =
      (match (file_infos.filter fun f =>
          f.extension = secondary_ext ∧ f.filepath ∉ used).find? (fun f =>
            has_common_keywords (strLower (pySplitext primary.filename).1)
              (strLower (pySplitext f.filename).1) ||
            (strIn (strLower (pySplitext primary.filename).1)
              (strLower (pySplitext f.filename).1) ||
             strIn (strLower (pySplitext f.filename).1)
              (strLower (pySplitext primary.filename).1))) with
      | some f => [f.filepath]
      | none =>
        match file_infos.filter (fun f =>
            f.extension = secondary_ext ∧ f.filepath ∉ used) with
        | [f] => [f.filepath]
        | _ => []) :=
  fun primary secondary_ext file_infos used =>
    find_fuzzy_match_eq primary secondary_ext file_infos used

theorem exactSecondaries_nil (l : List FileInfo) (e base : String) :
    exactSecondaries l e [] base =
      (l.filter fun f =>
        f.extension = e ∧ (pySplitext f.filename).1 = base).map (·.filepath) := by
  rw [exactSecondaries]
  congr 1
  apply List.filter_congr
  intro f _
  simp

theorem filter_ext_base_of_singleton (l : List FileInfo) (e base : String) (c : FileInfo)
    (hc : l.filter (fun f => f.extension = e) = [c]) :
    (l.filter fun f => f.extension = e ∧ (pySplitext f.filename).1 = base) =
      if (pySplitext c.filename).1 = base then [c] else [] := by
  induction l with
  | nil => simp at hc
  | cons f fs ih =>
    by_cases hf : f.extension = e
    · rw [List.filter_cons_of_pos (by simpa using hf)] at hc
      have hfc : f = c := (List.cons_eq_cons.mp hc).1
      have hrest : fs.filter (fun f => f.extension = e) = [] := (List.cons_eq_cons.mp hc).2
      have hrest2 : (fs.filter fun f =>
          f.extension = e ∧ (pySplitext f.filename).1 = base) = [] := by
        rw [List.filter_eq_nil_iff]
        intro x hx
        have hxe := List.filter_eq_nil_iff.mp hrest x hx
        simp only [decide_eq_true_eq] at hxe ⊢
        exact fun hconj => hxe hconj.1
      subst hfc
      by_cases hbase : (pySplitext f.filename).1 = base
      · rw [List.filter_cons_of_pos (by simp [hf, hbase]), hrest2, if_pos hbase]
      · rw [List.filter_cons_of_neg (by simp [hbase]), hrest2, if_neg hbase]
    · rw [List.filter_cons_of_neg (by simpa using hf)] at hc
      rw [List.filter_cons_of_neg (by simp [hf])]
      exact ih hc

/-- C2, counterexample — a prototxt/caffemodel pair with identical base
names is NOT always paired: with a second prototxt file earlier in the list,
the elimination fallback hands the sole caffemodel to that unrelated
prototxt, so `net.prototxt` and `net.caffemodel` (identical base name
"net") end up in no common bundle. -/
theorem classify_caffe_identical_base_counterexample :
    ¬ ∃ b ∈ group_model_files
        [⟨"zzz.prototxt", "/u/zzz.prototxt", ".prototxt", 1⟩,
         ⟨"net.prototxt", "/u/net.prototxt", ".prototxt", 1⟩,
         ⟨"net.caffemodel", "/u/net.caffemodel", ".caffemodel", 1⟩,
         ⟨"d.onnx", "/u/d.onnx", ".onnx", 1⟩],
      "/u/net.prototxt" ∈ bundleFiles b ∧ "/u/net.caffemodel" ∈ bundleFiles b := by
  decide

/-- C2, amended — on an input that is not exactly three files and whose only
prototxt file is `p` and only caffemodel file is `c`, `classify` pairs `p`
and `c` into one Caffe bundle with `p` as primary and `c` as the sole
secondary: by exact base-name match when the base names agree, and through
the fuzzy fallback (whose elimination rule always fires for a sole
remaining caffemodel) otherwise. -/
theorem classify_caffe_unique_pair :
    ∀ (l : List FileInfo) (p c : FileInfo),
    l.length ≠ 3 →
    l.filter (fun f => f.extension = ".prototxt") = [p] →
    l.filter (fun f => f.extension = ".caffemodel") = [c] →
    ∃ g ∈ group_model_files l, g.model_type = "caffe" ∧
      g.primary_file = p.filepath ∧ g.secondary_files = [c.filepath] := by
  intro l p c hlen hp hc
  have hprims : (l.filter fun f =>
      f.extension = ".prototxt" ∧ f.filepath ∉ ([] : List String)) = [p] := by
    rw [List.filter_congr (fun f _ => by simp :
      ∀ f ∈ l, (decide (f.extension = ".prototxt" ∧ f.filepath ∉ ([] : List String))) =
        decide (f.extension = ".prototxt"))]
    exact hp
  have hcands : (l.filter fun f =>
      f.extension = ".caffemodel" ∧ f.filepath ∉ ([] : List String)) = [c] := by
    rw [List.filter_congr (fun f _ => by simp :
      ∀ f ∈ l, (decide (f.extension = ".caffemodel" ∧ f.filepath ∉ ([] : List String))) =
        decide (f.extension = ".caffemodel"))]
    exact hc
  have hexact : exactSecondaries l ".caffemodel" [] (pySplitext p.filename).1 =
      if (pySplitext c.filename).1 = (pySplitext p.filename).1 then [c.filepath] else [] := by
    rw [exactSecondaries_nil,
      filter_ext_base_of_singleton l ".caffemodel" (pySplitext p.filename).1 c hc]
    by_cases hb : (pySplitext c.filename).1 = (pySplitext p.filename).1
    · rw [if_pos hb, if_pos hb]; rfl
    · rw [if_neg hb, if_neg hb]; rfl
  have hfuzzy : find_fuzzy_match p ".caffemodel" l [] = [c.filepath] := by
    rw [find_fuzzy_match_eq, hcands]
    cases hfind : ([c].find? fun f =>
        has_common_keywords (strLower (pySplitext p.filename).1)
          (strLower (pySplitext f.filename).1) ||
        (strIn (strLower (pySplitext p.filename).1)
          (strLower (pySplitext f.filename).1) ||
         strIn (strLower (pySplitext f.filename).1)
          (strLower (pySplitext p.filename).1))) with
    | none => rfl
    | some f =>
      have hf : f ∈ [c] := List.mem_of_find?_eq_some hfind
      have : f = c := by simpa using hf
      subst this
      rfl
  have hchoose : chooseSecs l ".caffemodel" [] p = [c.filepath] := by
    by_cases hb : (pySplitext c.filename).1 = (pySplitext p.filename).1
    · simp [chooseSecs, hexact, if_pos hb]
    · simp [chooseSecs, hexact, if_neg hb, hfuzzy]
  have hpair : pairedStep l "caffe" ".caffemodel" [p] [] =
      ([⟨p.filepath, [c.filepath], [], "caffe"⟩], [] ++ p.filepath :: [c.filepath]) := by
    simp [pairedStep, hchoose]
  have hcaffe : find_paired_files l "caffe" ".prototxt" ".caffemodel" [] =
      ([⟨p.filepath, [c.filepath], [], "caffe"⟩], [] ++ p.filepath :: [c.filepath]) := by
    rw [find_paired_files, hprims, hpair]
  refine ⟨⟨p.filepath, [c.filepath], [], "caffe"⟩, ?_, rfl, rfl, rfl⟩
  rw [group_model_files, if_neg hlen]
  simp only [hcaffe]
  exact List.mem_append_left _ (List.mem_append_left _
    (List.mem_append_left _ (by simp)))

/-- Witness for C2's amended theorem: four files whose unique
prototxt/caffemodel pair has differing base names with no shared substring
are still paired by elimination. -/
theorem classify_caffe_unique_pair_witness :
    ∃ g ∈ group_model_files
      [⟨"aa.prototxt", "/u/aa.prototxt", ".prototxt", 1⟩,
       ⟨"qq.caffemodel", "/u/qq.caffemodel", ".caffemodel", 1⟩,
       ⟨"d.onnx", "/u/d.onnx", ".onnx", 1⟩,
       ⟨"e.tflite", "/u/e.tflite", ".tflite", 1⟩],
    g.model_type = "caffe" ∧ g.primary_file = "/u/aa.prototxt" ∧
      g.secondary_files = ["/u/qq.caffemodel"] :=
  classify_caffe_unique_pair
    [⟨"aa.prototxt", "/u/aa.prototxt", ".prototxt", 1⟩,
     ⟨"qq.caffemodel", "/u/qq.caffemodel", ".caffemodel", 1⟩,
     ⟨"d.onnx", "/u/d.onnx", ".onnx", 1⟩,
     ⟨"e.tflite", "/u/e.tflite", ".tflite", 1⟩]
    ⟨"aa.prototxt", "/u/aa.prototxt", ".prototxt", 1⟩
    ⟨"qq.caffemodel", "/u/qq.caffemodel", ".caffemodel", 1⟩
    (by decide) (by decide) (by decide)

theorem setStatus_keys (s : PoolState) (id : Nat) (st : JobStatus) :
    (setStatus s id st).jobs.map Prod.fst = s.jobs.map Prod.fst := by
  rw [setStatus, List.map_map]
  apply List.map_congr_left
  intro jk _
  by_cases h : jk.1 = id <;> simp [h]

theorem setStatus_map_id (id : Nat) (st : JobStatus) :
    ∀ l : List (Nat × JobStatus), id ∉ l.map Prod.fst →
    (l.map fun jk => if jk.1 = id then (jk.1, st) else jk) = l := by
  intro l
  induction l with
  | nil => intro _; rfl
  | cons hd tl ih =>
    intro h
    have hhd : hd.1 ≠ id := fun he => h (by simp [← he])
    have htl : id ∉ tl.map Prod.fst := fun he => h (by simp [he])
    simp [hhd, ih htl]

theorem runningSlots_setStatus (id : Nat) (st0 st1 : JobStatus) :
    ∀ l : List (Nat × JobStatus), (l.map Prod.fst).Nodup → (id, st0) ∈ l →
    List.Perm
      (((l.map fun jk => if jk.1 = id then (jk.1, st1) else jk).flatMap
        fun jk => statusSlots jk.2) ++ statusSlots st0)
      (statusSlots st1 ++ l.flatMap fun jk => statusSlots jk.2) := by
  intro l
  induction l with
  | nil => intro _ hmem; simp at hmem
  | cons hd tl ih =>
    intro hnd hmem
    obtain ⟨j, stj⟩ := hd
    have hcons : (j :: tl.map Prod.fst).Nodup := by simpa using hnd
    have hj : j ∉ tl.map Prod.fst := (List.nodup_cons.mp hcons).1
    have hndtl : (tl.map Prod.fst).Nodup := (List.nodup_cons.mp hcons).2
    by_cases hid : j = id
    · have hstj : stj = st0 := by
        rcases List.mem_cons.mp hmem with heq | htl
        · exact (congrArg Prod.snd heq).symm
        · exfalso
          apply hj
          rw [hid]
          simpa using List.mem_map_of_mem Prod.fst htl
      subst hstj
      rw [List.map_cons, List.flatMap_cons]
      simp only [hid, if_pos rfl]
      rw [hid] at hj
      rw [setStatus_map_id id st1 tl hj, List.flatMap_cons, List.append_assoc]
      exact List.Perm.append_left (statusSlots st1) List.perm_append_comm
    · have hmemtl : (id, st0) ∈ tl := by
        rcases List.mem_cons.mp hmem with heq | htl
        · exact absurd (congrArg Prod.fst heq).symm hid
        · exact htl
      rw [List.map_cons, List.flatMap_cons]
      simp only [if_neg hid]
      rw [List.flatMap_cons, List.append_assoc]
      have h1 : List.Perm
          (statusSlots stj ++
            (((tl.map fun jk => if jk.1 = id then (jk.1, st1) else jk).flatMap
              fun jk => statusSlots jk.2) ++ statusSlots st0))
          (statusSlots stj ++ (statusSlots st1 ++ tl.flatMap fun jk => statusSlots jk.2)) :=
        List.Perm.append_left _ (ih hndtl hmemtl)
      have h2 : List.Perm
          (statusSlots stj ++ (statusSlots st1 ++ tl.flatMap fun jk => statusSlots jk.2))
          (statusSlots st1 ++ (statusSlots stj ++ tl.flatMap fun jk => statusSlots jk.2)) := by
        rw [← List.append_assoc, ← List.append_assoc]
        exact List.Perm.append_right _ List.perm_append_comm
      exact h1.trans h2

theorem poolInv_step {W : Nat} {s t : PoolState} (hs : PoolInv W s)
    (hst : PoolStep W s t) : PoolInv W t := by
  obtain ⟨hkeys, hnd, hbound⟩ := hs
  cases hst with
  | submit id hfresh =>
    refine ⟨?_, ?_, ?_⟩
    · rw [List.map_append]
      exact List.Nodup.append hkeys (by simp) (by simpa using hfresh)
    · show ((s.jobs ++ [(id, JobStatus.pending)]).flatMap fun jk => statusSlots jk.2).Nodup
      rw [List.flatMap_append]
      simpa [statusSlots] using hnd
    · intro w hw
      rw [show runningSlots ⟨s.jobs ++ [(id, JobStatus.pending)]⟩ =
          runningSlots s from by simp [runningSlots, statusSlots]] at hw
      exact hbound w hw
  | claim id w hmem hw hfree =>
    have hperm := runningSlots_setStatus id .pending (.running w) s.jobs hkeys hmem
    have hperm2 : List.Perm (runningSlots (setStatus s id (.running w)))
        (w :: runningSlots s) := by
      simpa [statusSlots, runningSlots, setStatus] using hperm
    refine ⟨by rw [setStatus_keys]; exact hkeys, ?_, ?_⟩
    · exact hperm2.nodup_iff.mpr (List.nodup_cons.mpr ⟨hfree, hnd⟩)
    · intro x hx
      rcases List.mem_cons.mp (hperm2.mem_iff.mp hx) with h | h
      · exact h ▸ hw
      · exact hbound x h
  | finishOk id w hmem =>
    have hperm := runningSlots_setStatus id (.running w) .completed s.jobs hkeys hmem
    have hperm2 : List.Perm (runningSlots (setStatus s id .completed) ++ [w])
        (runningSlots s) := by
      simpa [statusSlots, runningSlots, setStatus] using hperm
    refine ⟨by rw [setStatus_keys]; exact hkeys, ?_, ?_⟩
    · exact ((hperm2.nodup_iff.mpr hnd).sublist
        (List.sublist_append_left _ _))
    · intro x hx
      exact hbound x (hperm2.mem_iff.mp (List.mem_append_left _ hx))
  | finishErr id w hmem =>
    have hperm := runningSlots_setStatus id (.running w) .failed s.jobs hkeys hmem
    have hperm2 : List.Perm (runningSlots (setStatus s id .failed) ++ [w])
        (runningSlots s) := by
      simpa [statusSlots, runningSlots, setStatus] using hperm
    refine ⟨by rw [setStatus_keys]; exact hkeys, ?_, ?_⟩
    · exact ((hperm2.nodup_iff.mpr hnd).sublist
        (List.sublist_append_left _ _))
    · intro x hx
      exact hbound x (hperm2.mem_iff.mp (List.mem_append_left _ hx))
  | cancelPending id hmem =>
    have hperm := runningSlots_setStatus id .pending .cancelled s.jobs hkeys hmem
    have hperm2 : List.Perm (runningSlots (setStatus s id .cancelled))
        (runningSlots s) := by
      simpa [statusSlots, runningSlots, setStatus] using hperm
    refine ⟨by rw [setStatus_keys]; exact hkeys, ?_, ?_⟩
    · exact hperm2.nodup_iff.mpr hnd
    · intro x hx
      exact hbound x (hperm2.mem_iff.mp hx)

theorem length_flatMap_statusSlots :
    ∀ l : List (Nat × JobStatus),
    (l.flatMap fun jk => statusSlots jk.2).length =
      (l.filter fun jk => match jk.2 with | .running _ => true | _ => false).length := by
  intro l
  induction l with
  | nil => rfl
  | cons hd tl ih =>
    rw [List.flatMap_cons, List.length_append, ih]
    cases hst : hd.2 <;> simp [statusSlots, List.filter_cons, hst] <;> omega

/-- C10 — in every state reachable by the worker-pool transition system, the
number of jobs in the `Running` status never exceeds `max_workers`, and no
worker slot services two jobs (the occupied-slot list is duplicate-free;
each running job holds exactly one slot by construction). -/
theorem worker_pool_running_bound :
    ∀ (W : Nat) (s : PoolState), PoolReachable W s →
    countRunning s ≤ W ∧ (runningSlots s).Nodup := by
  intro W s hreach
  have hinv : PoolInv W s := by
    induction hreach with
    | init => exact ⟨by simp, by simp [runningSlots], by simp [runningSlots]⟩
    | step _ hstep ih => exact poolInv_step ih hstep
  obtain ⟨_, hnd, hbound⟩ := hinv
  refine ⟨?_, hnd⟩
  have hlen : (runningSlots s).length = countRunning s :=
    length_flatMap_statusSlots s.jobs
  rw [← hlen]
  have hsub : (runningSlots s).toFinset ⊆ Finset.range W := fun x hx =>
    Finset.mem_range.mpr (hbound x (List.mem_toFinset.mp hx))
  calc (runningSlots s).length = (runningSlots s).toFinset.card :=
        (List.toFinset_card_of_nodup hnd).symm
    _ ≤ (Finset.range W).card := Finset.card_le_card hsub
    _ = W := Finset.card_range W

/-- Witness for C10: a two-slot pool state reached by submitting job 5 and
letting slot 0 claim it. -/
theorem worker_pool_running_bound_witness :
    countRunning ⟨[(5, JobStatus.running 0)]⟩ ≤ 2 ∧
      (runningSlots ⟨[(5, JobStatus.running 0)]⟩).Nodup := by
  have h0 : PoolReachable 2 ⟨[(5, JobStatus.pending)]⟩ := by
    have hstep := @PoolStep.submit 2 ⟨[]⟩ 5 (by decide)
    rw [show (⟨[] ++ [(5, JobStatus.pending)]⟩ : PoolState) =
      ⟨[(5, JobStatus.pending)]⟩ from rfl] at hstep
    exact .step .init hstep
  have h1 : PoolReachable 2 ⟨[(5, JobStatus.running 0)]⟩ := by
    have hstep := @PoolStep.claim 2 ⟨[(5, JobStatus.pending)]⟩ 5 0
      (by decide) (by decide) (by decide)
    rw [show setStatus ⟨[(5, JobStatus.pending)]⟩ 5 (JobStatus.running 0) =
      ⟨[(5, JobStatus.running 0)]⟩ from by decide] at hstep
    exact .step h0 hstep
  exact worker_pool_running_bound 2 _ h1

theorem exactSecondaries_spec (l : List FileInfo) (sext : String) (used : List String)
    (base : String) :
    ∀ q ∈ exactSecondaries l sext used base,
      ∃ f ∈ l, f.extension = sext ∧ f.filepath ∉ used ∧ f.filepath = q := by
  intro q hq
  rw [exactSecondaries, List.mem_map] at hq
  obtain ⟨f, hf, hfq⟩ := hq
  have hmem := List.mem_filter.mp hf
  refine ⟨f, hmem.1, ?_, ?_, hfq⟩
  · exact (by simpa using hmem.2 : _ ∧ _ ∧ _).1
  · exact (by simpa using hmem.2 : _ ∧ _ ∧ _).2.1

theorem exactSecondaries_nodup (l : List FileInfo) (sext : String) (used : List String)
    (base : String) (hl : (l.map (·.filepath)).Nodup) :
    (exactSecondaries l sext used base).Nodup := by
  rw [exactSecondaries]
  exact hl.sublist ((List.filter_sublist l).map (·.filepath))

theorem find_fuzzy_match_cases (p : FileInfo) (sext : String) (l : List FileInfo)
    (used : List String) :
    find_fuzzy_match p sext l used = [] ∨
    ∃ f ∈ l, f.extension = sext ∧ f.filepath ∉ used ∧
      find_fuzzy_match p sext l used = [f.filepath] := by
  rw [find_fuzzy_match_eq]
  cases hfind : (l.filter fun f => f.extension = sext ∧ f.filepath ∉ used).find? (fun f =>
      has_common_keywords (strLower (pySplitext p.filename).1)
        (strLower (pySplitext f.filename).1) ||
      (strIn (strLower (pySplitext p.filename).1)
        (strLower (pySplitext f.filename).1) ||
       strIn (strLower (pySplitext f.filename).1)
        (strLower (pySplitext p.filename).1))) with
  | some f =>
    right
    have hf := List.mem_filter.mp (List.mem_of_find?_eq_some hfind)
    exact ⟨f, hf.1, (by simpa using hf.2 : _ ∧ _).1, (by simpa using hf.2 : _ ∧ _).2, rfl⟩
  | none =>
    cases hcands : l.filter (fun f => f.extension = sext ∧ f.filepath ∉ used) with
    | nil => left; rfl
    | cons f rest =>
      cases rest with
      | nil =>
        right
        have hf := List.mem_filter.mp (hcands ▸ List.mem_cons_self f [])
        exact ⟨f, hf.1, (by simpa using hf.2 : _ ∧ _).1, (by simpa using hf.2 : _ ∧ _).2, rfl⟩
      | cons g rest2 => left; rfl

theorem lastPath_mem (e : String) :
    ∀ (l : List FileInfo) (acc : Option String) (x : String),
    lastPath e l acc = some x →
    (∃ f ∈ l, f.extension = e ∧ f.filepath = x) ∨ acc = some x := by
  intro l
  induction l with
  | nil => intro acc x h; exact Or.inr h
  | cons f fs ih =>
    intro acc x h
    rw [lastPath] at h
    by_cases hf : f.extension = e
    · rw [if_pos hf] at h
      rcases ih _ x h with hin | hacc
      · obtain ⟨g, hg, hge, hgx⟩ := hin
        exact Or.inl ⟨g, List.mem_cons_of_mem f hg, hge, hgx⟩
      · exact Or.inl ⟨f, List.mem_cons_self f fs, hf, Option.some.inj hacc⟩
    · rw [if_neg hf] at h
      rcases ih _ x h with hin | hacc
      · obtain ⟨g, hg, hge, hgx⟩ := hin
        exact Or.inl ⟨g, List.mem_cons_of_mem f hg, hge, hgx⟩
      · exact Or.inr hacc

theorem lastMPPath_mem :
    ∀ (l : List FileInfo) (acc : Option String) (x : String),
    lastMPPath l acc = some x →
    (∃ f ∈ l, (f.extension = ".meta" ∨ f.extension = ".pb") ∧ f.filepath = x) ∨
      acc = some x := by
  intro l
  induction l with
  | nil => intro acc x h; exact Or.inr h
  | cons f fs ih =>
    intro acc x h
    rw [lastMPPath] at h
    by_cases hf : f.extension = ".meta" ∨ f.extension = ".pb"
    · rw [if_pos hf] at h
      rcases ih _ x h with hin | hacc
      · obtain ⟨g, hg, hge, hgx⟩ := hin
        exact Or.inl ⟨g, List.mem_cons_of_mem f hg, hge, hgx⟩
      · exact Or.inl ⟨f, List.mem_cons_self f fs, hf, Option.some.inj hacc⟩
    · rw [if_neg hf] at h
      rcases ih _ x h with hin | hacc
      · obtain ⟨g, hg, hge, hgx⟩ := hin
        exact Or.inl ⟨g, List.mem_cons_of_mem f hg, hge, hgx⟩
      · exact Or.inr hacc

theorem splitCluster_eq (files : List FileInfo) :
    splitCluster files =
      (lastMPPath files none,
       (files.filter fun f =>
         ¬ (f.extension = ".meta" ∨ f.extension = ".pb")).map (·.filepath)) := by
  rw [splitCluster]
  suffices h : ∀ (fs : List FileInfo) (pr : Option String) (acc : List String),
      fs.foldl (fun acc f =>
        if f.extension = ".meta" ∨ f.extension = ".pb" then (some f.filepath, acc.2)
        else (acc.1, acc.2 ++ [f.filepath])) (pr, acc) =
      (lastMPPath fs pr,
       acc ++ (fs.filter fun f =>
         ¬ (f.extension = ".meta" ∨ f.extension = ".pb")).map (·.filepath)) by
    rw [h files none []]
    simp
  intro fs
  induction fs with
  | nil => intro pr acc; simp [lastMPPath]
  | cons f fs ih =>
    intro pr acc
    by_cases hf : f.extension = ".meta" ∨ f.extension = ".pb"
    · rw [List.foldl_cons, if_pos hf]
      rw [ih (some f.filepath) acc]
      rw [show lastMPPath (f :: fs) pr = lastMPPath fs (some f.filepath) from by
        rw [lastMPPath, if_pos hf]]
      rw [List.filter_cons_of_neg
        (by simp only [decide_eq_true_eq, not_not]; exact hf)]
    · rw [List.foldl_cons, if_neg hf]
      rw [ih pr (acc ++ [f.filepath])]
      rw [show lastMPPath (f :: fs) pr = lastMPPath fs pr from by
        rw [lastMPPath, if_neg hf]]
      rw [List.filter_cons_of_pos (by simp only [decide_eq_true_eq]; exact hf),
        List.map_cons, List.append_assoc]
      rfl

theorem insertGroup_flat (k : String) (f : FileInfo) :
    ∀ m : List (String × List FileInfo),
    List.Perm ((insertGroup m k f).flatMap fun kv => kv.2)
      ((m.flatMap fun kv => kv.2) ++ [f]) := by
  intro m
  induction m with
  | nil => simp [insertGroup]
  | cons hd tl ih =>
    obtain ⟨k', fs⟩ := hd
    by_cases hk : k' = k
    · rw [insertGroup, if_pos hk, List.flatMap_cons, List.flatMap_cons,
        List.append_assoc, List.append_assoc]
      exact List.Perm.append_left fs List.perm_append_comm
    · rw [insertGroup, if_neg hk, List.flatMap_cons, List.flatMap_cons, List.append_assoc]
      exact List.Perm.append_left fs ih

theorem buildGroups_flat (l : List FileInfo) (used : List String) :
    List.Perm ((buildGroups l used).flatMap fun kv => kv.2)
      (l.filter fun f => f.filepath ∉ used ∧ matchesGroupPattern f) := by
  rw [buildGroups]
  suffices h : ∀ (fs : List FileInfo) (m : List (String × List FileInfo)),
      List.Perm ((fs.foldl (fun m f =>
          if f.filepath ∈ used then m
          else if matchesGroupPattern f then insertGroup m (extract_base_name f.filename) f
          else m) m).flatMap fun kv => kv.2)
        ((m.flatMap fun kv => kv.2) ++
          (fs.filter fun f => f.filepath ∉ used ∧ matchesGroupPattern f)) by
    simpa using h l []
  intro fs
  induction fs with
  | nil => intro m; simp
  | cons f ft ih =>
    intro m
    by_cases hu : f.filepath ∈ used
    · rw [List.foldl_cons, if_pos hu,
        List.filter_cons_of_neg (by simp [hu])]
      exact ih m
    · by_cases hm : matchesGroupPattern f
      · rw [List.foldl_cons, if_neg hu, if_pos hm,
          List.filter_cons_of_pos (by simp [hu, hm])]
        refine (ih (insertGroup m (extract_base_name f.filename) f)).trans ?_
        refine (List.Perm.append_right _ (insertGroup_flat _ f m)).trans ?_
        rw [List.append_assoc]
        exact List.Perm.append_left _ (by simp)
      · rw [List.foldl_cons, if_neg hu, if_neg hm,
          List.filter_cons_of_neg (by simp [hu, hm])]
        exact ih m

theorem path_inj {l : List FileInfo} (hl : (l.map (·.filepath)).Nodup)
    {f g : FileInfo} (hf : f ∈ l) (hg : g ∈ l) (h : f.filepath = g.filepath) :
    f = g :=
  List.inj_on_of_nodup_map hl hf hg h

theorem chooseSecs_spec (l : List FileInfo) (sext : String) (used : List String)
    (p : FileInfo) :
    ∀ q ∈ chooseSecs l sext used p,
      ∃ f ∈ l, f.extension = sext ∧ f.filepath ∉ used ∧ f.filepath = q := by
  intro q hq
  rw [chooseSecs] at hq
  by_cases hex : exactSecondaries l sext used (pySplitext p.filename).1 = []
  · rw [if_pos hex] at hq
    rcases find_fuzzy_match_cases p sext l used with hnil | ⟨f, hf, he, hu, heq⟩
    · rw [hnil] at hq; simp at hq
    · rw [heq] at hq
      have hqf : q = f.filepath := by simpa using hq
      exact ⟨f, hf, he, hu, hqf.symm⟩
  · rw [if_neg hex] at hq
    exact exactSecondaries_spec l sext used _ q hq

theorem chooseSecs_nodup (l : List FileInfo) (sext : String) (used : List String)
    (p : FileInfo) (hl : (l.map (·.filepath)).Nodup) :
    (chooseSecs l sext used p).Nodup := by
  rw [chooseSecs]
  by_cases hex : exactSecondaries l sext used (pySplitext p.filename).1 = []
  · rw [if_pos hex]
    rcases find_fuzzy_match_cases p sext l used with hnil | ⟨f, _, _, _, heq⟩
    · rw [hnil]; exact List.nodup_nil
    · rw [heq]; simp
  · rw [if_neg hex]
    exact exactSecondaries_nodup l sext used _ hl

theorem pairedStep_ok (l : List FileInfo) (mt pext sext : String) (hne : pext ≠ sext)
    (hl : (l.map (·.filepath)).Nodup) :
    ∀ (prims : List FileInfo) (used : List String),
    (∀ p ∈ prims, p ∈ l ∧ p.extension = pext) →
    prims.Nodup →
    (∀ p ∈ prims, p.filepath ∉ used) →
    PhaseOK l used (pairedStep l mt sext prims used).1
      (pairedStep l mt sext prims used).2 := by
  intro prims
  induction prims with
  | nil =>
    intro used _ _ _
    simp only [PhaseOK, pairedStep]
    refine ⟨by simp, by simp, List.Pairwise.nil, fun x hx => hx, by simp⟩
  | cons p ps ih =>
    intro used hmem hnd hunused
    have hpL : p ∈ l := (hmem p (List.mem_cons_self p ps)).1
    have hpE : p.extension = pext := (hmem p (List.mem_cons_self p ps)).2
    have hpU : p.filepath ∉ used := hunused p (List.mem_cons_self p ps)
    have hpsnd : ps.Nodup := (List.nodup_cons.mp hnd).2
    have hpps : p ∉ ps := (List.nodup_cons.mp hnd).1
    by_cases hempty : chooseSecs l sext used p = []
    · have heq : pairedStep l mt sext (p :: ps) used = pairedStep l mt sext ps used := by
        simp only [pairedStep]
        rw [if_pos hempty]
      rw [heq]
      exact ih used (fun r hr => hmem r (List.mem_cons_of_mem p hr)) hpsnd
        (fun r hr => hunused r (List.mem_cons_of_mem p hr))
    · have heq : pairedStep l mt sext (p :: ps) used =
          (⟨p.filepath, chooseSecs l sext used p, [], mt⟩ ::
            (pairedStep l mt sext ps (used ++ p.filepath :: chooseSecs l sext used p)).1,
           (pairedStep l mt sext ps (used ++ p.filepath :: chooseSecs l sext used p)).2) := by
        simp only [pairedStep]
        rw [if_neg hempty]
      have hbg : bundleFiles ⟨p.filepath, chooseSecs l sext used p, [], mt⟩ =
          p.filepath :: chooseSecs l sext used p := by
        simp [bundleFiles]
      have hpnotsecs : p.filepath ∉ chooseSecs l sext used p := by
        intro hmem'
        obtain ⟨f, hf, he, _, hfq⟩ := chooseSecs_spec l sext used p p.filepath hmem'
        have : f = p := path_inj hl hf hpL hfq
        rw [this] at he
        exact hne (hpE ▸ he)
      have hsecsU1 : ∀ q ∈ bundleFiles ⟨p.filepath, chooseSecs l sext used p, [], mt⟩,
          q ∈ used ++ p.filepath :: chooseSecs l sext used p := by
        intro q hq
        rw [hbg] at hq
        exact List.mem_append_right used hq
      have hps' : ∀ r ∈ ps, r.filepath ∉ used ++ p.filepath :: chooseSecs l sext used p := by
        intro r hr hbad
        have hrL : r ∈ l := (hmem r (List.mem_cons_of_mem p hr)).1
        have hrE : r.extension = pext := (hmem r (List.mem_cons_of_mem p hr)).2
        rcases List.mem_append.mp hbad with hu | hu
        · exact hunused r (List.mem_cons_of_mem p hr) hu
        · rcases List.mem_cons.mp hu with hu | hu
          · have : r = p := path_inj hl hrL hpL hu
            exact hpps (this ▸ hr)
          · obtain ⟨f, hf, he, _, hfq⟩ := chooseSecs_spec l sext used p r.filepath hu
            have : f = r := path_inj hl hf hrL hfq
            rw [this] at he
            exact hne (hrE ▸ he)
      obtain ⟨ih1, ih2, ih3, ih4, ih5⟩ := ih (used ++ p.filepath :: chooseSecs l sext used p)
        (fun r hr => hmem r (List.mem_cons_of_mem p hr)) hpsnd hps'
      rw [heq]
      simp only [PhaseOK]
      refine ⟨?_, ?_, ?_, ?_, ?_⟩
      · intro b hb q hq
        rcases List.mem_cons.mp hb with hb | hb
        · rw [hb, hbg] at hq
          rcases List.mem_cons.mp hq with hq | hq
          · exact ⟨⟨p, hpL, hq.symm⟩, hq ▸ hpU⟩
          · obtain ⟨f, hf, _, hu, hfq⟩ := chooseSecs_spec l sext used p q hq
            exact ⟨⟨f, hf, hfq⟩, hfq ▸ hu⟩
        · obtain ⟨hex, hnu⟩ := ih1 b hb q hq
          exact ⟨hex, fun hu => hnu (List.mem_append_left _ hu)⟩
      · intro b hb
        rcases List.mem_cons.mp hb with hb | hb
        · rw [hb, hbg]
          exact List.nodup_cons.mpr ⟨hpnotsecs, chooseSecs_nodup l sext used p hl⟩
        · exact ih2 b hb
      · rw [List.pairwise_cons]
        refine ⟨?_, ih3⟩
        intro b' hb' q hq hq'
        exact (ih1 b' hb' q hq').2 (hsecsU1 q hq)
      · intro x hx
        exact ih4 x (List.mem_append_left _ hx)
      · intro b hb q hq
        rcases List.mem_cons.mp hb with hb | hb
        · exact ih4 q (hsecsU1 q (hb ▸ hq))
        · exact ih5 b hb q hq

theorem find_paired_files_ok (l : List FileInfo) (mt pext sext : String)
    (used : List String) (hne : pext ≠ sext) (hl : (l.map (·.filepath)).Nodup) :
    PhaseOK l used (find_paired_files l mt pext sext used).1
      (find_paired_files l mt pext sext used).2 := by
  rw [find_paired_files]
  apply pairedStep_ok l mt pext sext hne hl
  · intro p hp
    have h := List.mem_filter.mp hp
    exact ⟨h.1, (by simpa using h.2 : _ ∧ _).1⟩
  · exact (List.Nodup.of_map _ hl).filter _
  · intro p hp
    exact (by simpa using (List.mem_filter.mp hp).2 : _ ∧ _).2

theorem singleStep_ok (l : List FileInfo) :
    ∀ (fis : List FileInfo) (used : List String),
    (∀ f ∈ fis, f ∈ l) →
    PhaseOK l used (singleStep fis used).1 (singleStep fis used).2 := by
  intro fis
  induction fis with
  | nil =>
    intro used _
    simp only [PhaseOK, singleStep]
    exact ⟨by simp, by simp, List.Pairwise.nil, fun x hx => hx, by simp⟩
  | cons f fs ih =>
    intro used hmem
    have hfL : f ∈ l := hmem f (List.mem_cons_self f fs)
    by_cases hc : f.filepath ∉ used ∧ identify_single_file_type f.extension ≠ "unknown"
    · have heq : singleStep (f :: fs) used =
          (⟨f.filepath, [], [], identify_single_file_type f.extension⟩ ::
            (singleStep fs (used ++ [f.filepath])).1,
           (singleStep fs (used ++ [f.filepath])).2) := by
        simp only [singleStep]
        rw [if_pos hc]
      have hbg : bundleFiles ⟨f.filepath, [], [], identify_single_file_type f.extension⟩ =
          [f.filepath] := by simp [bundleFiles]
      obtain ⟨ih1, ih2, ih3, ih4, ih5⟩ := ih (used ++ [f.filepath])
        (fun r hr => hmem r (List.mem_cons_of_mem f hr))
      rw [heq]
      simp only [PhaseOK]
      refine ⟨?_, ?_, ?_, ?_, ?_⟩
      · intro b hb q hq
        rcases List.mem_cons.mp hb with hb | hb
        · rw [hb, hbg] at hq
          have hqf : q = f.filepath := by simpa using hq
          exact ⟨⟨f, hfL, hqf.symm⟩, hqf ▸ hc.1⟩
        · obtain ⟨hex, hnu⟩ := ih1 b hb q hq
          exact ⟨hex, fun hu => hnu (List.mem_append_left _ hu)⟩
      · intro b hb
        rcases List.mem_cons.mp hb with hb | hb
        · rw [hb, hbg]; simp
        · exact ih2 b hb
      · rw [List.pairwise_cons]
        refine ⟨?_, ih3⟩
        intro b' hb' q hq hq'
        rw [hbg] at hq
        have hqf : q = f.filepath := by simpa using hq
        exact (ih1 b' hb' q hq').2
          (List.mem_append_right used (hqf ▸ List.mem_cons_self f.filepath []))
      · intro x hx
        exact ih4 x (List.mem_append_left _ hx)
      · intro b hb q hq
        rcases List.mem_cons.mp hb with hb | hb
        · rw [hb, hbg] at hq
          have hqf : q = f.filepath := by simpa using hq
          exact ih4 q (List.mem_append_right used (hqf ▸ List.mem_cons_self f.filepath []))
        · exact ih5 b hb q hq
    · have heq : singleStep (f :: fs) used = singleStep fs used := by
        simp only [singleStep]
        rw [if_neg hc]
      rw [heq]
      exact ih used (fun r hr => hmem r (List.mem_cons_of_mem f hr))

theorem groupedStep_ok (l : List FileInfo) (mt : String)
    (hl : (l.map (·.filepath)).Nodup) :
    ∀ (cs : List (String × List FileInfo)) (used : List String),
    (∀ kv ∈ cs, ∀ f ∈ kv.2, f ∈ l ∧ f.filepath ∉ used) →
    ((cs.flatMap fun kv => kv.2).map (·.filepath)).Nodup →
    PhaseOK l used (groupedStep mt cs used).1 (groupedStep mt cs used).2 := by
  intro cs
  induction cs with
  | nil =>
    intro used _ _
    simp only [PhaseOK, groupedStep]
    exact ⟨by simp, by simp, List.Pairwise.nil, fun x hx => hx, by simp⟩
  | cons kv rest ih =>
    intro used hmem hjnd
    obtain ⟨k, files⟩ := kv
    have hflat : ((files.map (·.filepath)) ++
        ((rest.flatMap fun kv => kv.2).map (·.filepath))).Nodup := by
      rw [← List.map_append]
      simpa [List.flatMap_cons] using hjnd
    have hfilesnd : (files.map (·.filepath)).Nodup := hflat.of_append_left
    have hrestnd : ((rest.flatMap fun kv => kv.2).map (·.filepath)).Nodup :=
      hflat.of_append_right
    have hdisj : List.Disjoint (files.map (·.filepath))
        ((rest.flatMap fun kv => kv.2).map (·.filepath)) :=
      List.disjoint_of_nodup_append hflat
    have hmemfiles : ∀ f ∈ files, f ∈ l ∧ f.filepath ∉ used := by
      intro f hf
      exact hmem (k, files) (List.mem_cons_self _ rest) f hf
    have hskip : ∀ hcond : ¬ (files.length > 1 ∧ pyTruthy (splitCluster files).1 = true),
        PhaseOK l used (groupedStep mt ((k, files) :: rest) used).1
          (groupedStep mt ((k, files) :: rest) used).2 := by
      intro hcond
      have heq : groupedStep mt ((k, files) :: rest) used = groupedStep mt rest used := by
        simp only [groupedStep]
        by_cases h1 : files.length > 1
        · rw [if_pos h1, if_neg fun h2 => hcond ⟨h1, h2⟩]
        · rw [if_neg h1]
      rw [heq]
      exact ih used (fun kv' hkv' => hmem kv' (List.mem_cons_of_mem _ hkv')) hrestnd
    by_cases hcond : files.length > 1 ∧ pyTruthy (splitCluster files).1 = true
    · obtain ⟨hlen2, hpr⟩ := hcond
      obtain ⟨x, hx⟩ : ∃ x, (splitCluster files).1 = some x := by
        cases hsc : (splitCluster files).1 with
        | none => rw [hsc] at hpr; simp [pyTruthy] at hpr
        | some y => exact ⟨y, rfl⟩
      obtain ⟨fx, hfxmem, hfxmp, hfxpath⟩ :
          ∃ f ∈ files, (f.extension = ".meta" ∨ f.extension = ".pb") ∧ f.filepath = x := by
        have := splitCluster_eq files
        have hxl : lastMPPath files none = some x := by
          rw [← hx, this]
        rcases lastMPPath_mem files none x hxl with h | h
        · exact h
        · simp at h
      have hsecs : (splitCluster files).2 =
          (files.filter fun f =>
            ¬ (f.extension = ".meta" ∨ f.extension = ".pb")).map (·.filepath) := by
        rw [splitCluster_eq]
      have heq : groupedStep mt ((k, files) :: rest) used =
          (⟨(splitCluster files).1.getD "", (splitCluster files).2, [], mt⟩ ::
            (groupedStep mt rest (used ++ files.map (·.filepath))).1,
           (groupedStep mt rest (used ++ files.map (·.filepath))).2) := by
        simp only [groupedStep]
        rw [if_pos hlen2, if_pos hpr]
      have hgd : (splitCluster files).1.getD "" = x := by rw [hx]; rfl
      have hbg : bundleFiles ⟨(splitCluster files).1.getD "", (splitCluster files).2, [], mt⟩ =
          x :: (files.filter fun f =>
            ¬ (f.extension = ".meta" ∨ f.extension = ".pb")).map (·.filepath) := by
        rw [bundleFiles]
        simp only [hgd, hsecs, List.append_nil]
      have hsecsub : ∀ q ∈ (files.filter fun f =>
          ¬ (f.extension = ".meta" ∨ f.extension = ".pb")).map (·.filepath),
          ∃ f ∈ files, ¬ (f.extension = ".meta" ∨ f.extension = ".pb") ∧ f.filepath = q := by
        intro q hq
        obtain ⟨f, hf, hfq⟩ := List.mem_map.mp hq
        have hm := List.mem_filter.mp hf
        exact ⟨f, hm.1, by simpa using hm.2, hfq⟩
      have hbsub : ∀ q ∈ bundleFiles ⟨(splitCluster files).1.getD "",
          (splitCluster files).2, [], mt⟩, q ∈ files.map (·.filepath) := by
        intro q hq
        rw [hbg] at hq
        rcases List.mem_cons.mp hq with hq | hq
        · exact hq ▸ hfxpath ▸ List.mem_map_of_mem _ hfxmem
        · obtain ⟨f, hf, _, hfq⟩ := hsecsub q hq
          exact hfq ▸ List.mem_map_of_mem _ hf
      obtain ⟨ih1, ih2, ih3, ih4, ih5⟩ := ih (used ++ files.map (·.filepath))
        (by
          intro kv' hkv' f hf
          refine ⟨(hmem kv' (List.mem_cons_of_mem _ hkv') f hf).1, ?_⟩
          intro hbad
          rcases List.mem_append.mp hbad with hu | hu
          · exact (hmem kv' (List.mem_cons_of_mem _ hkv') f hf).2 hu
          · exact hdisj hu (List.mem_map_of_mem _
              (List.mem_flatMap.mpr ⟨kv', hkv', hf⟩)))
        hrestnd
      rw [heq]
      simp only [PhaseOK]
      refine ⟨?_, ?_, ?_, ?_, ?_⟩
      · intro b hb q hq
        rcases List.mem_cons.mp hb with hb | hb
        · rw [hb] at hq
          rw [hbg] at hq
          rcases List.mem_cons.mp hq with hq | hq
          · obtain ⟨hfl, hfu⟩ := hmemfiles fx hfxmem
            exact ⟨⟨fx, hfl, hq ▸ hfxpath⟩, hq ▸ hfxpath ▸ hfu⟩
          · obtain ⟨f, hf, _, hfq⟩ := hsecsub q hq
            obtain ⟨hfl, hfu⟩ := hmemfiles f hf
            exact ⟨⟨f, hfl, hfq⟩, hfq ▸ hfu⟩
        · obtain ⟨hex, hnu⟩ := ih1 b hb q hq
          exact ⟨hex, fun hu => hnu (List.mem_append_left _ hu)⟩
      · intro b hb
        rcases List.mem_cons.mp hb with hb | hb
        · rw [hb, hbg]
          refine List.nodup_cons.mpr ⟨?_, ?_⟩
          · intro hxin
            obtain ⟨f, hf, hnmp, hfq⟩ := hsecsub x hxin
            have : f = fx := List.inj_on_of_nodup_map hfilesnd hf hfxmem
              (hfq.trans hfxpath.symm)
            rw [this] at hnmp
            exact hnmp hfxmp
          · exact hfilesnd.sublist ((List.filter_sublist files).map _)
        · exact ih2 b hb
      · rw [List.pairwise_cons]
        refine ⟨?_, ih3⟩
        intro b' hb' q hq hq'
        exact (ih1 b' hb' q hq').2 (List.mem_append_right used (hbsub q hq))
      · intro x' hx'
        exact ih4 x' (List.mem_append_left _ hx')
      · intro b hb q hq
        rcases List.mem_cons.mp hb with hb | hb
        · exact ih4 q (List.mem_append_right used (hbsub q (hb ▸ hq)))
        · exact ih5 b hb q hq
    · exact hskip hcond

theorem find_grouped_files_ok (l : List FileInfo) (mt : String) (used : List String)
    (hl : (l.map (·.filepath)).Nodup) :
    PhaseOK l used (find_grouped_files l mt used).1 (find_grouped_files l mt used).2 := by
  rw [find_grouped_files]
  apply groupedStep_ok l mt hl
  · intro kv hkv f hf
    have hj : f ∈ (buildGroups l used).flatMap fun kv => kv.2 :=
      List.mem_flatMap.mpr ⟨kv, hkv, hf⟩
    have hm := List.mem_filter.mp ((buildGroups_flat l used).mem_iff.mp hj)
    exact ⟨hm.1, (by simpa using hm.2 : _ ∧ _).1⟩
  · refine ((buildGroups_flat l used).map (·.filepath)).nodup_iff.mpr ?_
    exact hl.sublist ((List.filter_sublist _).map _)

/-- C9 — for pairwise-distinct input paths, every path in any bundle that
`classify` returns comes from the input, no path occurs in two returned
bundles, and no path occurs twice within one bundle. -/
theorem classify_no_duplicate_paths :
    ∀ l : List FileInfo, (l.map (·.filepath)).Nodup →
    (∀ b ∈ group_model_files l, ∀ q ∈ bundleFiles b, ∃ f ∈ l, f.filepath = q) ∧
    (group_model_files l).Pairwise
      (fun b b' => ∀ q ∈ bundleFiles b, q ∉ bundleFiles b') ∧
    (∀ b ∈ group_model_files l, (bundleFiles b).Nodup) := by
  intro l hl
  by_cases hlen : l.length = 3
  · by_cases hc : pyTruthy (tripleScan l (none, none, none)).1 = true ∧
        pyTruthy (tripleScan l (none, none, none)).2.1 = true ∧
        pyTruthy (tripleScan l (none, none, none)).2.2 = true
    · obtain ⟨h1, h2, h3⟩ := hc
      obtain ⟨x1, hx1⟩ : ∃ x, (tripleScan l (none, none, none)).1 = some x := by
        cases h : (tripleScan l (none, none, none)).1 with
        | none => rw [h] at h1; simp [pyTruthy] at h1
        | some y => exact ⟨y, rfl⟩
      obtain ⟨x2, hx2⟩ : ∃ x, (tripleScan l (none, none, none)).2.1 = some x := by
        cases h : (tripleScan l (none, none, none)).2.1 with
        | none => rw [h] at h2; simp [pyTruthy] at h2
        | some y => exact ⟨y, rfl⟩
      obtain ⟨x3, hx3⟩ : ∃ x, (tripleScan l (none, none, none)).2.2 = some x := by
        cases h : (tripleScan l (none, none, none)).2.2 with
        | none => rw [h] at h3; simp [pyTruthy] at h3
        | some y => exact ⟨y, rfl⟩
      have hres : group_model_files l = [⟨x1, [x3], [x2], "tensorflow"⟩] := by
        rw [group_model_files, if_pos hlen, if_pos ⟨h1, h2, h3⟩, hx1, hx2, hx3]
        rfl
      have hlast1 : lastPath ".pb" l none = some x1 := by
        rw [← hx1, tripleScan_eq]
      have hlast2 : lastPath ".index" l none = some x2 := by
        rw [← hx2, tripleScan_eq]
      have hlast3 : lastPath ".data-00000-of-00001" l none = some x3 := by
        rw [← hx3, tripleScan_eq]
      obtain ⟨f1, hf1, he1, hp1⟩ :
          ∃ f ∈ l, f.extension = ".pb" ∧ f.filepath = x1 := by
        rcases lastPath_mem ".pb" l none x1 hlast1 with h | h
        · exact h
        · simp at h
      obtain ⟨f2, hf2, he2, hp2⟩ :
          ∃ f ∈ l, f.extension = ".index" ∧ f.filepath = x2 := by
        rcases lastPath_mem ".index" l none x2 hlast2 with h | h
        · exact h
        · simp at h
      obtain ⟨f3, hf3, he3, hp3⟩ :
          ∃ f ∈ l, f.extension = ".data-00000-of-00001" ∧ f.filepath = x3 := by
        rcases lastPath_mem ".data-00000-of-00001" l none x3 hlast3 with h | h
        · exact h
        · simp at h
      have hne13 : x1 ≠ x3 := by
        intro h
        have hfe : f1 = f3 := path_inj hl hf1 hf3 (by rw [hp1, hp3, h])
        rw [hfe] at he1
        exact absurd (he1.symm.trans he3) (by decide)
      have hne12 : x1 ≠ x2 := by
        intro h
        have hfe : f1 = f2 := path_inj hl hf1 hf2 (by rw [hp1, hp2, h])
        rw [hfe] at he1
        exact absurd (he1.symm.trans he2) (by decide)
      have hne32 : x3 ≠ x2 := by
        intro h
        have hfe : f3 = f2 := path_inj hl hf3 hf2 (by rw [hp3, hp2, h])
        rw [hfe] at he3
        exact absurd (he3.symm.trans he2) (by decide)
      rw [hres]
      refine ⟨?_, ?_, ?_⟩
      · intro b hb q hq
        have hb0 : b = ⟨x1, [x3], [x2], "tensorflow"⟩ := by simpa using hb
        rw [hb0] at hq
        have : q = x1 ∨ q = x3 ∨ q = x2 := by simpa [bundleFiles] using hq
        rcases this with h | h | h
        · exact ⟨f1, hf1, h ▸ hp1⟩
        · exact ⟨f3, hf3, h ▸ hp3⟩
        · exact ⟨f2, hf2, h ▸ hp2⟩
      · exact List.pairwise_singleton _ _
      · intro b hb
        have hb0 : b = ⟨x1, [x3], [x2], "tensorflow"⟩ := by simpa using hb
        rw [hb0]
        simp [bundleFiles, hne13, hne12, hne32]
    · have hres : group_model_files l = [] := by
        rw [group_model_files, if_pos hlen, if_neg hc]
      rw [hres]
      exact ⟨by simp, List.Pairwise.nil, by simp⟩
  · have hres : group_model_files l =
        (find_paired_files l "caffe" ".prototxt" ".caffemodel" []).1 ++
        (find_grouped_files l "tensorflow"
          (find_paired_files l "caffe" ".prototxt" ".caffemodel" []).2).1 ++
        (find_paired_files l "darknet" ".cfg" ".weights"
          (find_grouped_files l "tensorflow"
            (find_paired_files l "caffe" ".prototxt" ".caffemodel" []).2).2).1 ++
        (singleStep l
          (find_paired_files l "darknet" ".cfg" ".weights"
            (find_grouped_files l "tensorflow"
              (find_paired_files l "caffe" ".prototxt" ".caffemodel" []).2).2).2).1 := by
      rw [group_model_files, if_neg hlen]
    obtain ⟨c1, c2, c3, c4, c5⟩ :=
      find_paired_files_ok l "caffe" ".prototxt" ".caffemodel" [] (by decide) hl
    obtain ⟨t1, t2, t3, t4, t5⟩ :=
      find_grouped_files_ok l "tensorflow"
        (find_paired_files l "caffe" ".prototxt" ".caffemodel" []).2 hl
    obtain ⟨d1, d2, d3, d4, d5⟩ :=
      find_paired_files_ok l "darknet" ".cfg" ".weights"
        (find_grouped_files l "tensorflow"
          (find_paired_files l "caffe" ".prototxt" ".caffemodel" []).2).2 (by decide) hl
    obtain ⟨s1, s2, s3, s4, s5⟩ :=
      singleStep_ok l l
        (find_paired_files l "darknet" ".cfg" ".weights"
          (find_grouped_files l "tensorflow"
            (find_paired_files l "caffe" ".prototxt" ".caffemodel" []).2).2).2
        (fun f hf => hf)
    rw [hres]
    have hCT : ∀ b ∈ (find_paired_files l "caffe" ".prototxt" ".caffemodel" []).1,
        ∀ b' ∈ (find_grouped_files l "tensorflow"
          (find_paired_files l "caffe" ".prototxt" ".caffemodel" []).2).1,
        ∀ q ∈ bundleFiles b, q ∉ bundleFiles b' := by
      intro b hb b' hb' q hq hq'
      exact (t1 b' hb' q hq').2 (c5 b hb q hq)
    have hCD : ∀ b ∈ (find_paired_files l "caffe" ".prototxt" ".caffemodel" []).1,
        ∀ b' ∈ (find_paired_files l "darknet" ".cfg" ".weights"
          (find_grouped_files l "tensorflow"
            (find_paired_files l "caffe" ".prototxt" ".caffemodel" []).2).2).1,
        ∀ q ∈ bundleFiles b, q ∉ bundleFiles b' := by
      intro b hb b' hb' q hq hq'
      exact (d1 b' hb' q hq').2 (t4 q (c5 b hb q hq))
    have hCS : ∀ b ∈ (find_paired_files l "caffe" ".prototxt" ".caffemodel" []).1,
        ∀ b' ∈ (singleStep l
          (find_paired_files l "darknet" ".cfg" ".weights"
            (find_grouped_files l "tensorflow"
              (find_paired_files l "caffe" ".prototxt" ".caffemodel" []).2).2).2).1,
        ∀ q ∈ bundleFiles b, q ∉ bundleFiles b' := by
      intro b hb b' hb' q hq hq'
      exact (s1 b' hb' q hq').2 (d4 q (t4 q (c5 b hb q hq)))
    have hTD : ∀ b ∈ (find_grouped_files l "tensorflow"
          (find_paired_files l "caffe" ".prototxt" ".caffemodel" []).2).1,
        ∀ b' ∈ (find_paired_files l "darknet" ".cfg" ".weights"
          (find_grouped_files l "tensorflow"
            (find_paired_files l "caffe" ".prototxt" ".caffemodel" []).2).2).1,
        ∀ q ∈ bundleFiles b, q ∉ bundleFiles b' := by
      intro b hb b' hb' q hq hq'
      exact (d1 b' hb' q hq').2 (t5 b hb q hq)
    have hTS : ∀ b ∈ (find_grouped_files l "tensorflow"
          (find_paired_files l "caffe" ".prototxt" ".caffemodel" []).2).1,
        ∀ b' ∈ (singleStep l
          (find_paired_files l "darknet" ".cfg" ".weights"
            (find_grouped_files l "tensorflow"
              (find_paired_files l "caffe" ".prototxt" ".caffemodel" []).2).2).2).1,
        ∀ q ∈ bundleFiles b, q ∉ bundleFiles b' := by
      intro b hb b' hb' q hq hq'
      exact (s1 b' hb' q hq').2 (d4 q (t5 b hb q hq))
    have hDS : ∀ b ∈ (find_paired_files l "darknet" ".cfg" ".weights"
          (find_grouped_files l "tensorflow"
            (find_paired_files l "caffe" ".prototxt" ".caffemodel" []).2).2).1,
        ∀ b' ∈ (singleStep l
          (find_paired_files l "darknet" ".cfg" ".weights"
            (find_grouped_files l "tensorflow"
              (find_paired_files l "caffe" ".prototxt" ".caffemodel" []).2).2).2).1,
        ∀ q ∈ bundleFiles b, q ∉ bundleFiles b' := by
      intro b hb b' hb' q hq hq'
      exact (s1 b' hb' q hq').2 (d5 b hb q hq)
    refine ⟨?_, ?_, ?_⟩
    · intro b hb q hq
      rcases List.mem_append.mp hb with hb | hbS
      · rcases List.mem_append.mp hb with hb | hbD
        · rcases List.mem_append.mp hb with hbC | hbT
          · exact (c1 b hbC q hq).1
          · exact (t1 b hbT q hq).1
        · exact (d1 b hbD q hq).1
      · exact (s1 b hbS q hq).1
    · rw [List.pairwise_append]
      refine ⟨?_, s3, ?_⟩
      · rw [List.pairwise_append]
        refine ⟨?_, d3, ?_⟩
        · rw [List.pairwise_append]
          exact ⟨c3, t3, hCT⟩
        · intro b hb b' hb'
          rcases List.mem_append.mp hb with hbC | hbT
          · exact hCD b hbC b' hb'
          · exact hTD b hbT b' hb'
      · intro b hb b' hb'
        rcases List.mem_append.mp hb with hb | hbD
        · rcases List.mem_append.mp hb with hbC | hbT
          · exact hCS b hbC b' hb'
          · exact hTS b hbT b' hb'
        · exact hDS b hbD b' hb'
    · intro b hb
      rcases List.mem_append.mp hb with hb | hbS
      · rcases List.mem_append.mp hb with hb | hbD
        · rcases List.mem_append.mp hb with hbC | hbT
          · exact c2 b hbC
          · exact t2 b hbT
        · exact d2 b hbD
      · exact s2 b hbS

/-- Witness for C9: the no-duplication invariant instantiated at a concrete
four-file upload. -/
theorem classify_no_duplicate_paths_witness :
    (∀ b ∈ group_model_files
        [⟨"net.prototxt", "/u/net.prototxt", ".prototxt", 1⟩,
         ⟨"net.caffemodel", "/u/net.caffemodel", ".caffemodel", 9⟩,
         ⟨"d.onnx", "/u/d.onnx", ".onnx", 4⟩,
         ⟨"e.tflite", "/u/e.tflite", ".tflite", 2⟩],
      ∀ q ∈ bundleFiles b,
        ∃ f ∈ ([⟨"net.prototxt", "/u/net.prototxt", ".prototxt", 1⟩,
          ⟨"net.caffemodel", "/u/net.caffemodel", ".caffemodel", 9⟩,
          ⟨"d.onnx", "/u/d.onnx", ".onnx", 4⟩,
          ⟨"e.tflite", "/u/e.tflite", ".tflite", 2⟩] : List FileInfo), f.filepath = q) ∧
    (group_model_files
        [⟨"net.prototxt", "/u/net.prototxt", ".prototxt", 1⟩,
         ⟨"net.caffemodel", "/u/net.caffemodel", ".caffemodel", 9⟩,
         ⟨"d.onnx", "/u/d.onnx", ".onnx", 4⟩,
         ⟨"e.tflite", "/u/e.tflite", ".tflite", 2⟩]).Pairwise
      (fun b b' => ∀ q ∈ bundleFiles b, q ∉ bundleFiles b') ∧
    (∀ b ∈ group_model_files
        [⟨"net.prototxt", "/u/net.prototxt", ".prototxt", 1⟩,
         ⟨"net.caffemodel", "/u/net.caffemodel", ".caffemodel", 9⟩,
         ⟨"d.onnx", "/u/d.onnx", ".onnx", 4⟩,
         ⟨"e.tflite", "/u/e.tflite", ".tflite", 2⟩],
      (bundleFiles b).Nodup) :=
  classify_no_duplicate_paths
    [⟨"net.prototxt", "/u/net.prototxt", ".prototxt", 1⟩,
     ⟨"net.caffemodel", "/u/net.caffemodel", ".caffemodel", 9⟩,
     ⟨"d.onnx", "/u/d.onnx", ".onnx", 4⟩,
     ⟨"e.tflite", "/u/e.tflite", ".tflite", 2⟩] (by decide)

